import Mathlib

/-!
Shallow embedding of `boxes.py` (hillwithsmallfields/rooms): a converter from a
tabular room/shelf/hole description to a CSG (OpenSCAD) model.

Modelling conventions, fixed throughout this file:
* Python floats are modelled as `ℚ` (all the arithmetic the program performs on
  them is exact addition/subtraction/multiplication).
* Python dicts are modelled as association lists in insertion order (CPython
  dicts preserve insertion order, and key assignment keeps the original slot).
* A record's `name` attribute is modelled by its key in the association list:
  `read_layout` keys every record by its `name` field, so the two coincide.
* A value that may be either a raw CSV string or a number (Python is
  dynamically typed and `boxes.py` leaves some cells unconverted) is a `PyVal`.
* A Python run that raises an exception (TypeError/ValueError/KeyError/
  AttributeError/RecursionError) is modelled by `Option.none`: the program
  aborts with no output.  Unbounded recursion is modelled by a fuel parameter;
  exhausting the fuel is `none` as well.
-/

attribute [local semireducible] Rat.add Rat.mul Rat.sub Rat.inv Rat.ofScientific

/-- PyVal models a dynamically typed Python cell value: either a raw string
(as read from the CSV file) or a number. -/
inductive PyVal where
  | pstr (s : String)
  | num (q : ℚ)
deriving DecidableEq, Repr

/-- V3 models a Python 3-element list of floats, as used for `dimensions` and
`position` (index 0 = x/width, 1 = y/depth, 2 = z/height). -/
structure V3 where
  x : ℚ
  y : ℚ
  z : ℚ
deriving DecidableEq, Repr

/-- Index access `v[i]` on a 3-element list. -/
def V3.get (v : V3) : Fin 3 → ℚ
  | ⟨0, _⟩ => v.x
  | ⟨1, _⟩ => v.y
  | ⟨2, _⟩ => v.z

/-- Colour of a box: either an RGBA quadruple (the default mid-gray) or the
result of the external `rgbcolour` name lookup, which is out of scope for the
core (spec section 1) and therefore modelled symbolically by an injective
constructor carrying the name and opacity it was called with. -/
inductive Colour where
  | rgba (r g b a : ℚ)
  | external (name : String) (opacity : ℚ)
deriving DecidableEq, Repr

/-- Box models the Python class `Box`: a cuboid positive space (room, shelf or
box).  The `name` attribute is the record's key in the layout map; the unused
`neighbours` dict is omitted.  Note that `offset` is a `PyVal`: the source
stores `data.get('offset', 0.0) or 0.0`, which keeps the raw CSV string when
the cell is non-empty. -/
structure Box where
  box_type : String
  dimensions : V3
  position : V3
  adjacent : String
  direction : String
  alignment : String
  offset : PyVal
  holes : List String
  colour : Colour
deriving DecidableEq, Repr

/-- Hole models the Python class `Hole`: a cuboid negative space cut out of the
wall of a box.  It has no `position` and no `holes` attribute.  `height` and
`offset` go through `cell_as_float`, so they are genuine numbers. -/
structure Hole where
  dimensions : V3
  adjacent : String
  direction : String
  height : ℚ
  offset : ℚ
deriving DecidableEq, Repr

/-- Constant models the Python class `Constant`.  Its `value` is whatever
`data['width']` held: the raw CSV string for file rows, a number for the
defaults injected by `add_default_constants` (the source performs no
conversion). -/
structure Constant where
  value : PyVal
deriving DecidableEq, Repr

/-- Record is the sum of the row classes `boxes.py` can construct.  `typeRow`
and `custom` keep the raw row, mirroring the Python `Type` and `Custom`
classes, which just store `data`. -/
inductive Record where
  | box (b : Box)
  | hole (h : Hole)
  | const (c : Constant)
  | typeRow (data : List (String × String))
  | custom (data : List (String × String))
deriving DecidableEq, Repr

/-- Row models one CSV row as produced by `csv.DictReader`: a mapping from
column name to cell string, in column order. -/
abbrev Row := List (String × String)

/-- Boxes models the Python dict `boxes` mapping record names to records. -/
abbrev Boxes := List (String × Record)

/-- Deps models the Python dict `dependents` mapping an anchor name to the
list of names anchored on it. -/
abbrev Deps := List (String × List String)

/-- Dictionary read `d.get(k)` on an association list (first matching key;
keys are unique in every dict the program builds). -/
def alistGet {α : Type} (l : List (String × α)) (n : String) : Option α :=
  match l with
  | [] => none
  | (k, r) :: rest => if k = n then some r else alistGet rest n

/-- Dictionary write `d[k] = v` for a key that is already present: the value
is replaced in place (CPython keeps the original slot).  For an absent key the
list is returned unchanged (the program only uses this on present keys; the
insert-or-append variant is `alistPut`). -/
def alistSet {α : Type} (l : List (String × α)) (n : String) (v : α) : List (String × α) :=
  match l with
  | [] => []
  | (k, r) :: rest => if k = n then (k, v) :: alistSet rest n v else (k, r) :: alistSet rest n v

/-- Dictionary write `d[k] = v` in general: replace in place if the key is
present, append at the end otherwise. -/
def alistPut {α : Type} (l : List (String × α)) (n : String) (v : α) : List (String × α) :=
  match alistGet l n with
  | some _ => alistSet l n v
  | none => l ++ [(n, v)]

/-- Python string membership `needle in haystack` restricted to a leading
position: `leadMatch needle hay` holds when `needle` is an initial segment of
`hay`. -/
def leadMatch : List Char → List Char → Bool
  | [], _ => true
  | _ :: _, [] => false
  | a :: as, b :: bs => a == b && leadMatch as bs

/-- Contiguous-segment search used to model Python `needle in haystack` on
strings. -/
def hasSeg (needle : List Char) : List Char → Bool
  | [] => leadMatch needle []
  | c :: rest => leadMatch needle (c :: rest) || hasSeg needle rest

/-- Python substring containment `needle in haystack`. -/
def pyIn (needle haystack : String) : Bool :=
  hasSeg needle.toList haystack.toList

/-- Parse an unsigned run of decimal digits. -/
def parseDigitsAux : List Char → ℕ → Option ℕ
  | [], acc => some acc
  | c :: rest, acc =>
    if c.isDigit then parseDigitsAux rest (acc * 10 + (c.toNat - 48)) else none

/-- Parse the unsigned part of a Python float literal: digits, optionally with
a decimal point (at least one digit overall).  Python's `float` also accepts
exponents, inf/nan and embedded underscores; those inputs are outside the
modelled domain and map to `none`. -/
def pyFloatCore (cs : List Char) : Option ℚ :=
  let intPart := cs.takeWhile (fun c => c.isDigit)
  let rest := cs.dropWhile (fun c => c.isDigit)
  match rest with
  | [] =>
    if intPart = [] then none
    else (parseDigitsAux intPart 0).map (fun n => (n : ℚ))
  | '.' :: frac =>
    if intPart = [] && frac = [] then none
    else if frac.all (fun c => c.isDigit) then
      match parseDigitsAux intPart 0, parseDigitsAux frac 0 with
      | some n, some f => some ((n : ℚ) + (f : ℚ) / ((10 : ℚ) ^ frac.length))
      | _, _ => none
    else none
  | _ => none

/-- Python `float(s)` on a string: `none` models the ValueError raised on
input (such as the empty string) that does not parse. -/
def pyFloat (s : String) : Option ℚ :=
  match s.toList with
  | '-' :: cs => (pyFloatCore cs).map (fun q => -q)
  | '+' :: cs => pyFloatCore cs
  | cs => pyFloatCore cs

/-- Python `float(data.get(name))`: a missing column raises TypeError
(float(None)) and an empty or malformed cell raises ValueError, both `none`. -/
def floatCell (row : Row) (name : String) : Option ℚ :=
  match alistGet row name with
  | none => none
  | some v => pyFloat v

/-- cell_as_float from the source: empty (or missing) cells are treated as
0.0, anything else goes through `float` (which may raise). -/
def cell_as_float (row : Row) (name : String) : Option ℚ :=
  match alistGet row name with
  | none => some 0
  | some "" => some 0
  | some v => pyFloat v

/-- Box.__init__ from the source.  Crashes (`none`) when width/depth/height is
missing, empty or malformed (`float` raises).  `offset` keeps the raw string
of a non-empty cell: the source applies no conversion (`data.get('offset',
0.0) or 0.0`).  A missing direction/alignment/adjacent column yields Python
`None`; it is modelled as `""`, which behaves identically in every comparison
the resolver performs on the inputs this development considers. -/
def Box.init (opacity : ℚ) (row : Row) : Option Box :=
  match floatCell row "width", floatCell row "depth", floatCell row "height" with
  | some w, some d, some h =>
    some { box_type := match alistGet row "type" with | none => "room" | some t => t
           dimensions := ⟨w, d, h⟩
           position := ⟨0, 0, 0⟩
           adjacent := (alistGet row "adjacent").getD ""
           direction := (alistGet row "direction").getD ""
           alignment := (alistGet row "alignment").getD ""
           offset := match alistGet row "offset" with
                     | none => PyVal.num 0
                     | some "" => PyVal.num 0
                     | some s => PyVal.pstr s
           holes := []
           colour := match alistGet row "colour" with
                     | none => Colour.rgba (1/2) (1/2) (1/2) (1/2)
                     | some "" => Colour.rgba (1/2) (1/2) (1/2) (1/2)
                     | some s => Colour.external s opacity }
  | _, _, _ => none

/-- Hole.__init__ from the source: width and depth via `float` (may raise),
the third dimension provisionally 40, height and offset via `cell_as_float`. -/
def Hole.init (row : Row) : Option Hole :=
  match floatCell row "width", floatCell row "depth",
        cell_as_float row "height", cell_as_float row "offset" with
  | some w, some d, some hgt, some off =>
    some { dimensions := ⟨w, d, 40⟩
           adjacent := (alistGet row "adjacent").getD ""
           direction := (alistGet row "direction").getD ""
           height := hgt
           offset := off }
  | _, _, _, _ => none

/-- Constant.__init__ from the source: `self.value = data['width']` with no
conversion, so the value of a file-built constant is the raw cell string
(KeyError, hence `none`, when the width column is absent). -/
def Constant.init (row : Row) : Option Constant :=
  (alistGet row "width").map (fun s => { value := PyVal.pstr s })

/-- Hole.scad_string from the source, at the level of the vectors and values
interpolated into the fixed template (the textual template itself is a fixed
contract): the first translation vector, the rotation vector, the second
translation vector, the dimensions and the label.  Note the hardcoded 10 (the
comment in the source says `10=floor_thickness`), the hardcoded first rotation
component 90, and the hardcoded -40 in the second translation vector. -/
structure HoleStmt where
  preshift : V3
  rot : V3
  postshift : V3
  dimensions : V3
  label : String
deriving DecidableEq, Repr

/-- Arguments of the `hole(...)` statement emitted for one hole; `parent` is
the containing box. -/
def Hole.scad_args (parent : Box) (label : String) (h : Hole) : HoleStmt :=
  { preshift := ⟨if h.direction = "right" then parent.dimensions.x else 0,
                 if h.direction = "back" then parent.dimensions.y else 0,
                 10⟩
    rot := ⟨90, 0, if h.direction = "left" ∨ h.direction = "right" then 90 else 0⟩
    postshift := ⟨h.offset, h.height, -40⟩
    dimensions := h.dimensions
    label := label }

/-- Arguments of the `box(...)` statement emitted for one box. -/
structure BoxStmt where
  position : V3
  dimensions : V3
  colour : Colour
  label : String
deriving DecidableEq, Repr

/-- Lazy attribute read `record.position`: only Box instances have one
(reading it on any other record raises AttributeError). -/
def recPosition : Record → Option V3
  | Record.box b => some b.position
  | _ => none

/-- Lazy attribute read `record.dimensions`: Box and Hole instances have
dimensions. -/
def recDimensions : Record → Option V3
  | Record.box b => some b.dimensions
  | Record.hole h => some h.dimensions
  | _ => none

/-- Directions that place the dependent past the anchor's far face, in axis
order, from `enumerate(['right', 'behind', 'above'])`. -/
def dirPlus : Fin 3 → String
  | ⟨0, _⟩ => "right"
  | ⟨1, _⟩ => "behind"
  | ⟨2, _⟩ => "above"

/-- Directions that place the dependent before the anchor's near face, in axis
order, from `enumerate(['left', 'front', 'below'])`. -/
def dirMinus : Fin 3 → String
  | ⟨0, _⟩ => "left"
  | ⟨1, _⟩ => "front"
  | ⟨2, _⟩ => "below"

/-- Alignment tokens for the anchor's low face, in axis order, from
`enumerate(['left', 'front', 'bottom'])`. -/
def alignLow : Fin 3 → String
  | ⟨0, _⟩ => "left"
  | ⟨1, _⟩ => "front"
  | ⟨2, _⟩ => "bottom"

/-- Alignment tokens for the anchor's high face, in axis order, from
`enumerate(['right', 'back', 'top'])`. -/
def alignHigh : Fin 3 → String
  | ⟨0, _⟩ => "right"
  | ⟨1, _⟩ => "back"
  | ⟨2, _⟩ => "top"

/-- Python `q + offset` where `offset` is the dependent's `offset` attribute:
adding a raw string to a float raises TypeError. -/
def addOffset (q : ℚ) : PyVal → Option ℚ
  | PyVal.num o => some (q + o)
  | PyVal.pstr _ => none

/-- Value of `dependent.position[i]` after the two direction loops of
position_dependents.  The anchor's attributes are read lazily, exactly where
the source reads them. -/
def axisAfterDirection (anchorRec : Record) (b : Box) (i : Fin 3) : Option ℚ :=
  if b.direction = dirPlus i then
    match recPosition anchorRec, recDimensions anchorRec with
    | some p, some d => some (p.get i + d.get i)
    | _, _ => none
  else if b.direction = dirMinus i then
    match recPosition anchorRec with
    | some p => some (p.get i - b.dimensions.get i)
    | none => none
  else some (b.position.get i)

/-- Value of `dependent.position[i]` after the two alignment loops of
position_dependents, given the value `v` it had after the direction loops.
The low-face loop runs first, the high-face loop second (so the high-face
result wins when both tokens are present). -/
def axisAfterAlignment (anchorRec : Record) (b : Box) (i : Fin 3) (v : ℚ) : Option ℚ :=
  match (if pyIn (alignLow i) b.alignment then
           match recPosition anchorRec with
           | some p => addOffset (p.get i) b.offset
           | none => none
         else some v) with
  | none => none
  | some v1 =>
    if pyIn (alignHigh i) b.alignment then
      match recPosition anchorRec, recDimensions anchorRec with
      | some p, some d => addOffset (p.get i + d.get i - b.dimensions.get i) b.offset
      | _, _ => none
    else some v1

/-- Final value of `dependent.position[i]` once position_dependents has run
all four loops for one dependent (the loops are independent across axes). -/
def resolveAxis (anchorRec : Record) (b : Box) (i : Fin 3) : Option ℚ :=
  match axisAfterDirection anchorRec b i with
  | none => none
  | some v => axisAfterAlignment anchorRec b i v

/-- Effect of the four coordinate loops of position_dependents on one Box
dependent: its position is rewritten axis by axis against the anchor record. -/
def resolveBox (anchorRec : Record) (b : Box) : Option Box :=
  match resolveAxis anchorRec b 0, resolveAxis anchorRec b 1, resolveAxis anchorRec b 2 with
  | some px, some py, some pz => some { b with position := ⟨px, py, pz⟩ }
  | _, _, _ => none

/-- One loop iteration of position_dependents for one dependent: a Box
dependent gets its position resolved against the anchor; a Hole dependent is
appended to the anchor's hole list (AttributeError, hence `none`, if the
anchor is not a Box); any other record is left alone.  The second component
lists the names whose position was set by this step (used to state the
pre-order claims). -/
def applyKid (st : Boxes) (anchor kid : String) (kidRec : Record) :
    Option (Boxes × List String) :=
  match kidRec with
  | Record.box b =>
    match alistGet st anchor with
    | some anchorRec =>
      match resolveBox anchorRec b with
      | some b2 => some (alistSet st kid (Record.box b2), [kid])
      | none => none
    | none => none
  | Record.hole _ =>
    match alistGet st anchor with
    | some (Record.box ab) =>
      some (alistSet st anchor (Record.box { ab with holes := ab.holes ++ [kid] }), [])
    | some _ => none
    | none => none
  | _ => some (st, [])

/-- The loop body of position_dependents over the list of dependents of
`anchor`, abstracted over the walker used to recurse into each dependent's
own dependents (the walker is position_dependents one recursion level
deeper).  Each dependent is looked up (KeyError is `none`) and processed by
`applyKid`, then its own dependents are processed recursively. -/
def walkKidsWith (walker : Boxes -> String -> Option (Boxes × List String)) :
    Boxes -> String -> List String -> Option (Boxes × List String)
  | st, _, [] => some (st, [])
  | st, anchor, kid :: rest =>
    match alistGet st kid with
    | none => none
    | some kidRec =>
      match applyKid st anchor kid kidRec with
      | none => none
      | some (st1, ev) =>
        match walker st1 kid with
        | none => none
        | some (st2, tr1) =>
          match walkKidsWith walker st2 anchor rest with
          | none => none
          | some (st3, tr2) => some (st3, ev ++ tr1 ++ tr2)

/-- position_dependents from the source: position all records dependent on
the record named `name`, then their dependents, and so on.  Returns the
updated layout map and the pre-order list of box names whose position was
set.  `fuel` models Python's recursion limit, consumed one unit per nesting
level: a cyclic adjacency exhausts it (RecursionError), giving `none`. -/
def position_dependents (deps : Deps) (fuel : Nat) (st : Boxes) (name : String) :
    Option (Boxes × List String) :=
  match fuel, alistGet deps name with
  | _, none => some (st, [])
  | 0, some _ => none
  | Nat.succ f, some kids =>
    walkKidsWith (fun st2 kid => position_dependents deps f st2 kid) st name kids

/-- DEFAULT_CONSTANTS from the source (ceiling_thickness is negative so rooms
stay visible from above). -/
def DEFAULT_CONSTANTS : List (String × ℚ) :=
  [("wall_thickness", 10), ("floor_thickness", 10), ("ceiling_thickness", -1)]

/-- add_default_constants from the source: insert each missing default
constant (as a number, not a string) at the end of the map, in
DEFAULT_CONSTANTS order. -/
def add_default_constants (st : Boxes) : Boxes :=
  DEFAULT_CONSTANTS.foldl
    (fun acc p =>
      match alistGet acc p.1 with
      | some _ => acc
      | none => acc ++ [(p.1, Record.const { value := PyVal.num p.2 })])
    st

/-- Attribute read `boxes[n].value`: `none` models both a missing key and an
AttributeError on a record that is not a Constant. -/
def constValue (st : Boxes) (n : String) : Option PyVal :=
  match alistGet st n with
  | some (Record.const c) => some c.value
  | _ => none

/-- Per-record mutation performed by the adjust_dimensions loop when the three
thickness constants are numbers: rooms grow by the wall/floor/ceiling
thicknesses (internal to external dimensions), every hole's third dimension is
overwritten with wall_thickness * 8, everything else is untouched. -/
def adjustRecord (w f c : ℚ) : Record → Record
  | Record.box b =>
    if b.box_type = "room" then
      Record.box { b with dimensions := ⟨b.dimensions.x + w, b.dimensions.y + w,
                                         b.dimensions.z + (f + c)⟩ }
    else Record.box b
  | Record.hole h =>
    Record.hole { h with dimensions := ⟨h.dimensions.x, h.dimensions.y, w * 8⟩ }
  | r => r

/-- adjust_dimensions from the source.  After add_default_constants it reads
the three thickness constants and mutates rooms and holes; the returned triple
models the `PREAMBLE0 % (wall, floor, ceiling)` header.  When any of the three
values is a raw string the run dies (`none`): with a room present the first
`box.dimensions[0] += wall_thickness` raises TypeError, and in every case the
final `%g` formatting of the header raises TypeError, so the function never
returns normally on a string-valued constant. -/
def adjust_dimensions (st : Boxes) : Option (Boxes × ℚ × ℚ × ℚ) :=
  let st1 := add_default_constants st
  match constValue st1 "wall_thickness", constValue st1 "floor_thickness",
        constValue st1 "ceiling_thickness" with
  | some (PyVal.num w), some (PyVal.num f), some (PyVal.num c) =>
    some (st1.map (fun p => (p.1, adjustRecord w f c p.2)), w, f, c)
  | _, _, _ => none

/-- One iteration of generate_tree's loop over the records: Box and Hole
records are grouped by the name of their anchor.  A record whose `adjacent`
is the sentinel "start" becomes the root and `dependents['start']` is
overwritten (a later root wins); any other record is appended to its
anchor's list, creating the list if needed; remaining record kinds are
skipped. -/
def generate_tree_step (acc : Deps × Option String) (entry : String × Record) :
    Deps × Option String :=
  match entry.2 with
  | Record.box b =>
    if b.adjacent = "start" then (alistPut acc.1 "start" [entry.1], some entry.1)
    else (alistPut acc.1 b.adjacent ((alistGet acc.1 b.adjacent).getD [] ++ [entry.1]), acc.2)
  | Record.hole h =>
    if h.adjacent = "start" then (alistPut acc.1 "start" [entry.1], some entry.1)
    else (alistPut acc.1 h.adjacent ((alistGet acc.1 h.adjacent).getD [] ++ [entry.1]), acc.2)
  | _ => acc

/-- generate_tree from the source: fold the grouping step over the records in
input order, also tracking the record anchored at the sentinel "start". -/
def generate_tree (st : Boxes) : Deps × Option String :=
  st.foldl generate_tree_step ([], none)

/-- The hole statements attached to one box at emission time (`write_scad`
calls `hole.scad_string(self)` for each collected hole).  The holes were
stored as names; the records they denote are looked up in the final map
(Python holds the very objects, which coincide because names are unique). -/
def holeStmtsOf (st : Boxes) (b : Box) : List HoleStmt :=
  b.holes.foldr
    (fun hn acc =>
      match alistGet st hn with
      | some (Record.hole h) => Hole.scad_args b hn h :: acc
      | _ => acc)
    []

/-- The emission loop of make_scad_layout: one `box(...)` statement per Box in
record order, and the `hole(...)` statements grouped per box, to be written
out after all the boxes. -/
def boxStmts (st : Boxes) : List BoxStmt × List HoleStmt :=
  st.foldr
    (fun entry acc =>
      match entry.2 with
      | Record.box b =>
        (⟨b.position, b.dimensions, b.colour, entry.1⟩ :: acc.1, holeStmtsOf st b ++ acc.2)
      | _ => acc)
    ([], [])

/-- The row-to-record dispatch table `makers` plus the dict comprehension of
read_layout, processing one row: the declared type token (defaulting to
"room" only when the column is absent) selects the constructor; a `type` row
registers its name as a new custom kind; an unknown kind raises KeyError
(`none`). -/
def readRows (opacity : ℚ) : List Row → Boxes → List String → Option Boxes
  | [], st, _ => some st
  | row :: rest, st, customs =>
    match alistGet row "name" with
    | none => none
    | some nm =>
      let t := match alistGet row "type" with | none => "room" | some s => s
      let made : Option Record :=
        if t = "room" ∨ t = "shelf" ∨ t = "shelves" ∨ t = "box" then
          (Box.init opacity row).map Record.box
        else if t = "door" ∨ t = "window" then
          (Hole.init row).map Record.hole
        else if t = "constant" then
          (Constant.init row).map Record.const
        else if t = "type" then
          some (Record.typeRow row)
        else if customs.contains t then
          some (Record.custom row)
        else none
      match made with
      | none => none
      | some r =>
        readRows opacity rest (alistPut st nm r)
          (if t = "type" then customs ++ [nm] else customs)

/-- read_layout from the source (the CSV file is already split into rows by
the external csv module). -/
def read_layout (opacity : ℚ) (rows : List Row) : Option Boxes :=
  readRows opacity rows [] []

/-- ScadOutput is the output document at the level of the values interpolated
into the fixed textual templates: the three header constants, the debug flag
(which selects union-only output with red holes instead of a difference), the
box statements in record order and the hole statements grouped per box.  The
surrounding literal text is a fixed contract and is injective in these
values. -/
structure ScadOutput where
  constants : ℚ × ℚ × ℚ
  debug : Bool
  boxes : List BoxStmt
  holes : List HoleStmt
deriving DecidableEq, Repr

/-- make_scad_layout from the source: the whole pipeline from parsed rows to
the output document.  A run with no "start" record only prints a warning and
then dies dereferencing `first_box` (None), which is `none` here; a root that
is not a Box would have a `position` attribute created on it dynamically,
a degenerate case outside this model (also `none`).  The fuel given to the
resolver exceeds the number of records, which bounds the depth of every
acyclic adjacency tree; a cyclic one exhausts it, modelling RecursionError. -/
def make_scad_layout (rows : List Row) (opacity : ℚ) (debug : Bool) : Option ScadOutput :=
  match read_layout opacity rows with
  | none => none
  | some st =>
    let tree := generate_tree st
    match adjust_dimensions st with
    | none => none
    | some (st1, w, f, c) =>
      match tree.2 with
      | none => none
      | some rootName =>
        match alistGet st1 rootName with
        | some (Record.box rb) =>
          let st2 := alistSet st1 rootName (Record.box { rb with position := ⟨0, 0, 0⟩ })
          match position_dependents tree.1 (st2.length + 2) st2 rootName with
          | none => none
          | some (st3, _) =>
            let stmts := boxStmts st3
            some { constants := (w, f, c), debug := debug,
                   boxes := stmts.1, holes := stmts.2 }
        | _ => none

/-! ## Association-list lemmas -/

theorem alistGet_map {α β : Type} (g : α → β) :
    ∀ (l : List (String × α)) (k : String),
    alistGet (l.map (fun p => (p.1, g p.2))) k = (alistGet l k).map g := by
  intro l
  induction l with
  | nil => intro k; rfl
  | cons p rest ih =>
    intro k
    by_cases h : p.1 = k <;> simp [alistGet, h, ih]

theorem alistGet_append_some {α : Type} {l1 : List (String × α)} {k : String} {v : α}
    (h : alistGet l1 k = some v) (l2 : List (String × α)) :
    alistGet (l1 ++ l2) k = some v := by
  induction l1 with
  | nil => simp [alistGet] at h
  | cons p rest ih =>
    by_cases hk : p.1 = k
    · simp [alistGet, hk] at h ⊢; exact h
    · simp [alistGet, hk] at h ⊢; exact ih h

theorem alistGet_append_none {α : Type} {l1 : List (String × α)} {k : String}
    (h : alistGet l1 k = none) (l2 : List (String × α)) :
    alistGet (l1 ++ l2) k = alistGet l2 k := by
  induction l1 with
  | nil => rfl
  | cons p rest ih =>
    by_cases hk : p.1 = k
    · simp [alistGet, hk] at h
    · simp [alistGet, hk] at h ⊢; exact ih h

theorem add_default_constants_append (st : Boxes) :
    ∃ l2, add_default_constants st = st ++ l2 := by
  unfold add_default_constants
  generalize DEFAULT_CONSTANTS = ds
  induction ds generalizing st with
  | nil => exact ⟨[], by simp⟩
  | cons d ds ih =>
    simp only [List.foldl_cons]
    rcases h : alistGet st d.1 with _ | v
    · simp only [h]
      obtain ⟨l2, hl⟩ := ih (st ++ [(d.1, Record.const { value := PyVal.num d.2 })])
      exact ⟨_, by rw [hl, List.append_assoc]⟩
    · simp only [h]
      exact ih st

/-! ## Concrete fixtures used by witnesses and counterexamples -/

/-- A room with internal dimensions 300 by 200 by 250 anchored at the
sentinel "start" (the Hall of the spec's scenario). -/
def hallBox : Box :=
  { box_type := "room", dimensions := ⟨300, 200, 250⟩, position := ⟨0, 0, 0⟩,
    adjacent := "start", direction := "", alignment := "", offset := PyVal.num 0,
    holes := [], colour := Colour.rgba (1/2) (1/2) (1/2) (1/2) }

/-- A box abutting the Hall on the right. -/
def rightBox : Box :=
  { box_type := "box", dimensions := ⟨40, 40, 40⟩, position := ⟨0, 0, 0⟩,
    adjacent := "Hall", direction := "right", alignment := "", offset := PyVal.num 0,
    holes := [], colour := Colour.rgba (1/2) (1/2) (1/2) (1/2) }

/-- A box in front of the Hall. -/
def frontBox : Box :=
  { box_type := "box", dimensions := ⟨40, 40, 40⟩, position := ⟨0, 0, 0⟩,
    adjacent := "Hall", direction := "front", alignment := "", offset := PyVal.num 0,
    holes := [], colour := Colour.rgba (1/2) (1/2) (1/2) (1/2) }

/-- A box whose alignment token contains both the low-face and the high-face
token for axis 0. -/
def alignBothBox : Box :=
  { box_type := "box", dimensions := ⟨5, 5, 5⟩, position := ⟨0, 0, 0⟩,
    adjacent := "Hall", direction := "", alignment := "left right", offset := PyVal.num 0,
    holes := [], colour := Colour.rgba (1/2) (1/2) (1/2) (1/2) }

/-- A box aligned to the top face of its anchor. -/
def topAlignedBox : Box :=
  { box_type := "box", dimensions := ⟨5, 5, 5⟩, position := ⟨0, 0, 0⟩,
    adjacent := "Hall", direction := "above", alignment := "top", offset := PyVal.num 3,
    holes := [], colour := Colour.rgba (1/2) (1/2) (1/2) (1/2) }

/-- A door in the back wall of the Hall. -/
def backDoor : Hole :=
  { dimensions := ⟨90, 210, 40⟩, adjacent := "Hall", direction := "back",
    height := 0, offset := 50 }

/-! ## C1: abutment by direction -/

/-- C1: for a Space dependent resolved against an already-positioned anchor
and axis i, if its direction equals the i-th element of (right, behind,
above), the resolver sets position[i] to anchor.position[i] +
anchor.dimensions[i]; if it equals the i-th element of (left, front, below),
it sets position[i] to anchor.position[i] - dependent.dimensions[i].  The
theorem states the value the two direction loops assign (the alignment loops,
which run afterwards, may overwrite it; that is claim C2's subject). -/
theorem c1_direction_abutment (a b : Box) (i : Fin 3) :
    (b.direction = dirPlus i →
      axisAfterDirection (Record.box a) b i = some (a.position.get i + a.dimensions.get i)) ∧
    (b.direction = dirMinus i →
      axisAfterDirection (Record.box a) b i = some (a.position.get i - b.dimensions.get i)) := by
  constructor
  · intro h
    simp [axisAfterDirection, h, recPosition, recDimensions]
  · intro h
    have hne : dirMinus i ≠ dirPlus i := by fin_cases i <;> decide
    simp [axisAfterDirection, h, hne, recPosition, recDimensions]

/-- Witness for C1 at concrete inputs: a "right" dependent on axis 0 and a
"front" dependent on axis 1 of the Hall. -/
theorem c1_direction_abutment_witness :
    (axisAfterDirection (Record.box hallBox) rightBox 0 =
      some (hallBox.position.get 0 + hallBox.dimensions.get 0)) ∧
    (axisAfterDirection (Record.box hallBox) frontBox 1 =
      some (hallBox.position.get 1 - frontBox.dimensions.get 1)) :=
  ⟨(c1_direction_abutment hallBox rightBox 0).1 (by decide),
   (c1_direction_abutment hallBox frontBox 1).2 (by decide)⟩

/-! ## C2: alignment overrides -/

/-- Helper: against a Box anchor the direction loops always produce a value
(no attribute read can fail). -/
theorem axisAfterDirection_box_total (a b : Box) (i : Fin 3) :
    ∃ v, axisAfterDirection (Record.box a) b i = some v := by
  unfold axisAfterDirection
  split
  · simp [recPosition, recDimensions]
  · split
    · simp [recPosition]
    · simp

/-- C2 (amended): against an already-positioned anchor, if the dependent's
alignment token contains the i-th element of (right, back, top), its final
position[i] is anchor.position[i] + anchor.dimensions[i] -
dependent.dimensions[i] + offset, regardless of its direction (the alignment
loops run after the direction loops, so their result is the one that
remains); if it contains the i-th element of (left, front, bottom) and not
the high-face token, its final position[i] is anchor.position[i] + offset.
The original claim omitted the "and not the high-face token" proviso: the
high-face loop runs last and overwrites the low-face result when both tokens
are present (see the counterexample).  `offset` is assumed numeric (a raw
string offset makes the resolver raise; see C9). -/
theorem c2_alignment_overrides (a b : Box) (i : Fin 3) (o : ℚ)
    (ho : b.offset = PyVal.num o) :
    (pyIn (alignHigh i) b.alignment = true →
      resolveAxis (Record.box a) b i =
        some (a.position.get i + a.dimensions.get i - b.dimensions.get i + o)) ∧
    (pyIn (alignLow i) b.alignment = true → pyIn (alignHigh i) b.alignment = false →
      resolveAxis (Record.box a) b i = some (a.position.get i + o)) := by
  obtain ⟨v, hv⟩ := axisAfterDirection_box_total a b i
  constructor
  · intro hh
    simp only [resolveAxis, hv, axisAfterAlignment, recPosition, recDimensions, ho, addOffset, hh]
    by_cases hl : pyIn (alignLow i) b.alignment <;> simp [hl]
  · intro hl hh
    simp only [resolveAxis, hv, axisAfterAlignment, recPosition, recDimensions, ho, addOffset,
      hl, hh]
    simp

/-- A box aligned flush with the left face of its anchor, shifted by 2. -/
def leftAlignedBox : Box :=
  { box_type := "box", dimensions := ⟨5, 5, 5⟩, position := ⟨0, 0, 0⟩,
    adjacent := "Hall", direction := "right", alignment := "left", offset := PyVal.num 2,
    holes := [], colour := Colour.rgba (1/2) (1/2) (1/2) (1/2) }

/-- Witness for C2 at concrete inputs: a dependent with alignment "top" and
offset 3 above the Hall for the high-face conjunct, and a dependent with
alignment "left" and offset 2 (whose direction "right" is overridden) for the
low-face conjunct. -/
theorem c2_alignment_overrides_witness :
    (resolveAxis (Record.box hallBox) topAlignedBox 2 =
      some (hallBox.position.get 2 + hallBox.dimensions.get 2 -
            topAlignedBox.dimensions.get 2 + 3)) ∧
    (resolveAxis (Record.box hallBox) leftAlignedBox 0 =
      some (hallBox.position.get 0 + 2)) := by
  constructor
  · exact (c2_alignment_overrides hallBox topAlignedBox 2 3 rfl).1 (by decide)
  · exact (c2_alignment_overrides hallBox leftAlignedBox 0 2 rfl).2 (by decide) (by decide)

/-- Counterexample to C2 as stated: alignBothBox's alignment token contains
"left" (the 0th element of (left, front, bottom)) and its offset is 0, yet
its final x-position is not anchor.x + offset = 0: the "right" token is also
present and the high-face loop, which runs last, sets x to 0 + 300 - 5 + 0 =
295. -/
theorem c2_counterexample :
    pyIn (alignLow 0) alignBothBox.alignment = true ∧
    alignBothBox.offset = PyVal.num 0 ∧
    resolveAxis (Record.box hallBox) alignBothBox 0 ≠
      some (hallBox.position.get 0 + 0) ∧
    resolveAxis (Record.box hallBox) alignBothBox 0 = some 295 := by
  have h295 : resolveAxis (Record.box hallBox) alignBothBox 0 = some 295 := by
    have hl : pyIn "left" "left right" = true := by decide
    have hh : pyIn "right" "left right" = true := by decide
    simp only [resolveAxis, axisAfterDirection, axisAfterAlignment, recPosition,
      recDimensions, addOffset, alignBothBox, hallBox, dirPlus, dirMinus, alignLow, alignHigh]
    norm_num [hl, hh, V3.get]
    simp
  refine ⟨by decide, by decide, ?_, h295⟩
  rw [h295]
  intro hcontra
  rw [Option.some_inj] at hcontra
  norm_num [hallBox, V3.get] at hcontra

/-! ## C5: the dimension adjuster on rooms -/

/-- Unfolding lemma: the adjuster's loop body on a Box record. -/
theorem adjustRecord_box (w f c : ℚ) (b : Box) :
    adjustRecord w f c (Record.box b) =
      if b.box_type = "room" then
        Record.box { b with dimensions := ⟨b.dimensions.x + w, b.dimensions.y + w,
                                          b.dimensions.z + (f + c)⟩ }
      else Record.box b := rfl

/-- Unfolding lemma: the adjuster's loop body on a Hole record. -/
theorem adjustRecord_hole (w f c : ℚ) (h : Hole) :
    adjustRecord w f c (Record.hole h) =
      Record.hole { h with dimensions := ⟨h.dimensions.x, h.dimensions.y, w * 8⟩ } := rfl

/-- C5: the dimension adjuster mutates every Space of kind "room" by adding
wall_thickness to width and depth and floor_thickness + ceiling_thickness to
height, leaving shelf- and box-kind Spaces unmodified; with the defaults
(wall=10, floor=10, ceiling=-1) applied when the constants are absent, the
height gain is 10 + (-1) = 9, so a room with internal dimensions
(300, 200, 250) gets external dimensions (310, 210, 259) — instantiated on
the Hall in the witness. -/
theorem c5_adjust_room_dimensions (st : Boxes)
    (hw : alistGet st "wall_thickness" = none)
    (hf : alistGet st "floor_thickness" = none)
    (hc : alistGet st "ceiling_thickness" = none) :
    ∃ st2, adjust_dimensions st = some (st2, 10, 10, -1) ∧
      ∀ k b, alistGet st k = some (Record.box b) →
        alistGet st2 k = some (Record.box
          (if b.box_type = "room" then
            { b with dimensions := ⟨b.dimensions.x + 10, b.dimensions.y + 10,
                                    b.dimensions.z + 9⟩ }
          else b)) := by
  have hA : add_default_constants st =
      st ++ [("wall_thickness", Record.const { value := PyVal.num 10 }),
             ("floor_thickness", Record.const { value := PyVal.num 10 }),
             ("ceiling_thickness", Record.const { value := PyVal.num (-1) })] := by
    unfold add_default_constants DEFAULT_CONSTANTS
    simp only [List.foldl_cons, List.foldl_nil, hw]
    rw [alistGet_append_none hf]
    simp only [alistGet, List.append_assoc, List.cons_append, List.nil_append,
      reduceIte, String.reduceEq]
    rw [alistGet_append_none hc]
    simp [alistGet]
  have hwv : constValue (add_default_constants st) "wall_thickness" = some (PyVal.num 10) := by
    rw [hA]; unfold constValue; rw [alistGet_append_none hw]; simp [alistGet]
  have hfv : constValue (add_default_constants st) "floor_thickness" = some (PyVal.num 10) := by
    rw [hA]; unfold constValue; rw [alistGet_append_none hf]; simp [alistGet]
  have hcv : constValue (add_default_constants st) "ceiling_thickness" =
      some (PyVal.num (-1)) := by
    rw [hA]; unfold constValue; rw [alistGet_append_none hc]; simp [alistGet]
  refine ⟨(add_default_constants st).map
    (fun p => (p.1, adjustRecord 10 10 (-1) p.2)), ?_, ?_⟩
  · simp only [adjust_dimensions]
    rw [hwv, hfv, hcv]
  · intro k b hk
    have h1 : alistGet (add_default_constants st) k = some (Record.box b) := by
      rw [hA]; exact alistGet_append_some hk _
    rw [alistGet_map, h1]
    refine congrArg some ?_
    rw [adjustRecord_box]
    by_cases hb : b.box_type = "room" <;> simp only [hb, reduceIte] <;> norm_num

/-- The state of the Hall scenario: one room, no constants in the file. -/
def hallSt : Boxes := [("Hall", Record.box hallBox)]

/-- Witness for C5: the Hall scenario.  The last conjunct checks the concrete
external dimensions (310, 210, 259). -/
theorem c5_adjust_room_dimensions_witness :
    alistGet hallSt "wall_thickness" = none ∧
    alistGet hallSt "floor_thickness" = none ∧
    alistGet hallSt "ceiling_thickness" = none ∧
    (∃ st2, adjust_dimensions hallSt = some (st2, 10, 10, -1) ∧
      ∀ k b, alistGet hallSt k = some (Record.box b) →
        alistGet st2 k = some (Record.box
          (if b.box_type = "room" then
            { b with dimensions := ⟨b.dimensions.x + 10, b.dimensions.y + 10,
                                    b.dimensions.z + 9⟩ }
          else b))) ∧
    (adjust_dimensions hallSt).map (fun p => alistGet p.1 "Hall") =
      some (some (Record.box { hallBox with dimensions := ⟨310, 210, 259⟩ })) := by
  refine ⟨by decide, by decide, by decide,
    c5_adjust_room_dimensions hallSt (by decide) (by decide) (by decide), ?_⟩
  have hstep : adjust_dimensions hallSt =
      some ((add_default_constants hallSt).map
        (fun p => (p.1, adjustRecord 10 10 (-1) p.2)), 10, 10, -1) := by
    simp only [adjust_dimensions]
    rw [show constValue (add_default_constants hallSt) "wall_thickness" =
          some (PyVal.num 10) from by decide,
        show constValue (add_default_constants hallSt) "floor_thickness" =
          some (PyVal.num 10) from by decide,
        show constValue (add_default_constants hallSt) "ceiling_thickness" =
          some (PyVal.num (-1)) from by decide]
  rw [hstep]
  refine congrArg some ?_
  show alistGet ((add_default_constants hallSt).map
    (fun p => (p.1, adjustRecord 10 10 (-1) p.2))) "Hall" = _
  rw [alistGet_map,
      show alistGet (add_default_constants hallSt) "Hall" = some (Record.box hallBox)
        from by decide]
  refine congrArg some ?_
  rw [adjustRecord_box]
  norm_num [hallBox]

/-! ## C6: hole thickness and the second translation vector -/

/-- C6 (amended): the dimension adjuster overwrites every Hole's third
dimension with wall_thickness * 8, but the CSG emitter's second translation
vector for each hole statement is (offset, height, -40) with a hardcoded
-40: it does not depend on the adjusted thickness.  (The original claim said
the z-component is -(thickness), which would be -80 with the default
wall_thickness=10; the counterexample shows the emitted value is -40.) -/
theorem c6_hole_thickness_and_postshift (st st2 : Boxes) (w f c : ℚ)
    (h : adjust_dimensions st = some (st2, w, f, c)) :
    (∀ k hr, alistGet st k = some (Record.hole hr) →
      alistGet st2 k = some (Record.hole { hr with
        dimensions := ⟨hr.dimensions.x, hr.dimensions.y, w * 8⟩ })) ∧
    (∀ (parent : Box) (label : String) (hr : Hole),
      (Hole.scad_args parent label hr).postshift = ⟨hr.offset, hr.height, -40⟩) := by
  constructor
  · intro k hr hk
    simp only [adjust_dimensions] at h
    split at h
    · obtain ⟨l2, hl⟩ := add_default_constants_append st
      simp only [Option.some_inj, Prod.mk.injEq] at h
      obtain ⟨hst2, hw, hf, hc⟩ := h
      subst hst2 hw hf hc
      have hk2 : alistGet (add_default_constants st) k = some (Record.hole hr) := by
        rw [hl]; exact alistGet_append_some hk _
      rw [alistGet_map, hk2]
      exact congrArg some (adjustRecord_hole _ _ _ _)
    · exact absurd h (by simp)
  · intro parent label hr
    rfl

/-- A layout containing only a door, used to evaluate the adjuster and the
emitter concretely. -/
def doorSt : Boxes := [("door", Record.hole backDoor)]

/-- Counterexample to C6 as stated: with the default wall_thickness = 10 the
door's adjusted thickness is 10 * 8 = 80, yet the emitted second translation
vector's z-component is -40, and -40 is not -(80). -/
theorem c6_counterexample :
    (adjust_dimensions doorSt).map (fun p => (alistGet p.1 "door", p.2.1)) =
      some (some (Record.hole { backDoor with dimensions := ⟨90, 210, 80⟩ }), 10) ∧
    (Hole.scad_args hallBox "door" { backDoor with dimensions := ⟨90, 210, 80⟩ }).postshift.z
      = -40 ∧
    ((-40 : ℚ) ≠ -(80 : ℚ)) := by
  refine ⟨?_, by norm_num [Hole.scad_args, backDoor], by norm_num⟩
  have hstep : adjust_dimensions doorSt =
      some ((add_default_constants doorSt).map
        (fun p => (p.1, adjustRecord 10 10 (-1) p.2)), 10, 10, -1) := by
    simp only [adjust_dimensions]
    rw [show constValue (add_default_constants doorSt) "wall_thickness" =
          some (PyVal.num 10) from by decide,
        show constValue (add_default_constants doorSt) "floor_thickness" =
          some (PyVal.num 10) from by decide,
        show constValue (add_default_constants doorSt) "ceiling_thickness" =
          some (PyVal.num (-1)) from by decide]
  rw [hstep]
  refine congrArg some ?_
  show (alistGet ((add_default_constants doorSt).map
    (fun p => (p.1, adjustRecord 10 10 (-1) p.2))) "door", (10 : ℚ)) = _
  refine Prod.ext ?_ rfl
  show alistGet ((add_default_constants doorSt).map
    (fun p => (p.1, adjustRecord 10 10 (-1) p.2))) "door" = _
  rw [alistGet_map,
      show alistGet (add_default_constants doorSt) "door" = some (Record.hole backDoor)
        from by decide]
  refine congrArg some ?_
  rw [adjustRecord_hole]
  norm_num [backDoor]

/-! ## C7: the first translation vector and the rotation vector -/

/-- C7 (amended): in every emitted hole statement the first translation
vector's x-component is the containing Space's width exactly when the Hole's
direction is "right" (else 0), and its y-component is the containing Space's
depth exactly when the direction is "back" (not "behind", which is a
box-to-box direction; see the counterexample) — and the rotation vector is
(90, 0, 90) when the direction is "left" or "right" and (90, 0, 0)
otherwise: the x-rotation of 90 degrees is hardcoded, so the front/back case
is not a zero rotation. -/
theorem c7_hole_emission_vectors (parent : Box) (label : String) (h : Hole) :
    ((h.direction = "right" → (Hole.scad_args parent label h).preshift.x = parent.dimensions.x) ∧
     (h.direction ≠ "right" → (Hole.scad_args parent label h).preshift.x = 0)) ∧
    ((h.direction = "back" → (Hole.scad_args parent label h).preshift.y = parent.dimensions.y) ∧
     (h.direction ≠ "back" → (Hole.scad_args parent label h).preshift.y = 0)) ∧
    ((h.direction = "left" ∨ h.direction = "right" →
       (Hole.scad_args parent label h).rot = ⟨90, 0, 90⟩) ∧
     (h.direction ≠ "left" → h.direction ≠ "right" →
       (Hole.scad_args parent label h).rot = ⟨90, 0, 0⟩)) := by
  unfold Hole.scad_args
  refine ⟨⟨fun h1 => ?_, fun h1 => ?_⟩, ⟨fun h1 => ?_, fun h1 => ?_⟩,
          ⟨fun h1 => ?_, fun h1 h2 => ?_⟩⟩ <;>
    simp_all

/-- Witness for C7: a door in the back wall of the Hall (preshift.y is the
Hall's depth, rotation (90, 0, 0)) and a door in the right wall (preshift.x
is the Hall's width, rotation (90, 0, 90)). -/
def rightDoor : Hole :=
  { dimensions := ⟨90, 210, 40⟩, adjacent := "Hall", direction := "right",
    height := 0, offset := 50 }

theorem c7_hole_emission_vectors_witness :
    ((Hole.scad_args hallBox "door" backDoor).preshift.y = hallBox.dimensions.y) ∧
    ((Hole.scad_args hallBox "door" backDoor).rot = ⟨90, 0, 0⟩) ∧
    ((Hole.scad_args hallBox "door2" rightDoor).preshift.x = hallBox.dimensions.x) ∧
    ((Hole.scad_args hallBox "door2" rightDoor).rot = ⟨90, 0, 90⟩) :=
  ⟨(c7_hole_emission_vectors hallBox "door" backDoor).2.1.1 (by decide),
   (c7_hole_emission_vectors hallBox "door" backDoor).2.2.2 (by decide) (by decide),
   (c7_hole_emission_vectors hallBox "door2" rightDoor).1.1 (by decide),
   (c7_hole_emission_vectors hallBox "door2" rightDoor).2.2.1 (Or.inr (by decide))⟩

/-- Counterexample to C7 as stated: the claim keys the y-component on
direction "behind" and promises a zero rotation for front/back walls.  The
source keys the y-component on "back", so a hole with direction "back" gets
y-component = depth = 200 (the claim, reading "back" as not-"behind",
predicts 0), and its rotation vector is (90, 0, 0), not the zero vector. -/
theorem c7_counterexample :
    backDoor.direction = "back" ∧ ¬ (backDoor.direction = "behind") ∧
    (Hole.scad_args hallBox "door" backDoor).preshift.y = hallBox.dimensions.y ∧
    hallBox.dimensions.y ≠ 0 ∧
    (Hole.scad_args hallBox "door" backDoor).rot = ⟨90, 0, 0⟩ ∧
    (⟨90, 0, 0⟩ : V3) ≠ ⟨0, 0, 0⟩ := by decide

/-! ## C8: constant values are not parsed (code bug) -/

/-- A constant row as it comes from the CSV file: every cell is a string. -/
def constRow : Row := [("type", "constant"), ("name", "wall_thickness"), ("width", "12")]

/-- The layout read from a file containing just that constant row. -/
def strConstSt : Boxes := [("wall_thickness", Record.const { value := PyVal.pstr "12" })]

/-- C8 (code bug): the claim — and the spec's data model — say a Constant's
value is a scalar float, so that the adjuster's arithmetic on a file-supplied
wall/floor/ceiling thickness succeeds.  The source stores `data['width']`
without conversion, so a file-built Constant holds the raw string, and
adjust_dimensions dies (TypeError: the room-dimension addition and the final
%g header formatting both reject a str), killing the whole pipeline. -/
theorem c8_constant_value_raw_string :
    Constant.init constRow = some { value := PyVal.pstr "12" } ∧
    read_layout 1 [constRow] = some strConstSt ∧
    adjust_dimensions strConstSt = none ∧
    make_scad_layout [constRow] 1 false = none := by
  refine ⟨by decide, by decide, by decide, by decide⟩

/-! ## C9: numeric-field parsing of rows (code bug) -/

/-- A room row with an alignment and a non-empty offset cell. -/
def offsetRow : Row :=
  [("type", "room"), ("name", "A"), ("width", "300"), ("depth", "200"),
   ("height", "250"), ("adjacent", "Hall"), ("alignment", "left"), ("offset", "30")]

/-- A room row whose width cell is empty. -/
def emptyWidthRow : Row :=
  [("type", "room"), ("name", "B"), ("width", ""), ("depth", "200"), ("height", "250")]

/-- C9 (code bug): the claim — with the spec — says every numeric field
(width, depth, height, offset) is parsed as a float and an empty numeric cell
yields 0.0, in particular a Space's offset.  The source converts a Box's
width/depth/height with `float(...)` (an empty cell therefore raises
ValueError instead of yielding 0.0), never converts a Box's offset (a
non-empty cell stays the raw string, and the resolver's
`box.position[i] + dependent.offset` then raises TypeError), and only a
Hole's height/offset go through the empty-to-0.0 `cell_as_float`. -/
theorem c9_offset_not_parsed :
    (Box.init 1 offsetRow).map (fun b => b.offset) = some (PyVal.pstr "30") ∧
    (Box.init 1 offsetRow).map (fun b => resolveAxis (Record.box hallBox) b 0) = some none ∧
    Box.init 1 emptyWidthRow = none ∧
    (Hole.init [("name", "d"), ("width", "90"), ("depth", "210")]).map
      (fun hh => (hh.height, hh.offset)) = some (0, 0) := by
  refine ⟨by decide, by decide, by decide, by decide⟩

/-! ## C10: determinism of the pipeline -/

/-- C10: the pipeline is deterministic — two runs of the converter on
identical input with the same flags produce identical output.  The embedding
models every structure the source iterates (CPython dicts) as an
insertion-ordered association list, the external colour lookup as a pure
constructor, and the output document as the values interpolated into the
fixed textual templates (which are injective in those values), so equality of
the documents is byte-identity of the output text. -/
theorem c10_deterministic (rows1 rows2 : List Row) (opacity : ℚ) (debug : Bool)
    (h : rows1 = rows2) :
    make_scad_layout rows1 opacity debug = make_scad_layout rows2 opacity debug :=
  congrArg (fun r => make_scad_layout r opacity debug) h

/-- A complete one-room input file. -/
def hallRow : Row :=
  [("type", "room"), ("name", "Hall"), ("width", "300"), ("depth", "200"),
   ("height", "250"), ("adjacent", "start")]

/-- Witness for C10: two runs on the same concrete one-room input. -/
theorem c10_deterministic_witness :
    [hallRow] = [hallRow] ∧
    make_scad_layout [hallRow] 1 false = make_scad_layout [hallRow] 1 false :=
  ⟨rfl, c10_deterministic [hallRow] [hallRow] 1 false rfl⟩

/-- The layout doorSt after the adjuster runs with default constants. -/
def doorStAdjusted : Boxes :=
  [("door", Record.hole { backDoor with dimensions := ⟨90, 210, 80⟩ }),
   ("wall_thickness", Record.const { value := PyVal.num 10 }),
   ("floor_thickness", Record.const { value := PyVal.num 10 }),
   ("ceiling_thickness", Record.const { value := PyVal.num (-1) })]

/-- Witness for C6 (amended) on a concrete layout: the adjuster with default
constants gives the door thickness 10 * 8 = 80, and the emitted second
translation vector is (offset, height, -40). -/
theorem c6_hole_thickness_and_postshift_witness :
    adjust_dimensions doorSt = some (doorStAdjusted, 10, 10, -1) ∧
    alistGet doorStAdjusted "door" =
      some (Record.hole { backDoor with dimensions := ⟨90, 210, 80⟩ }) ∧
    (Hole.scad_args hallBox "door" backDoor).postshift =
      ⟨backDoor.offset, backDoor.height, -40⟩ := by
  refine ⟨by decide, ?_, ?_⟩
  · exact (c6_hole_thickness_and_postshift doorSt doorStAdjusted 10 10 (-1)
      (by decide)).1 "door" backDoor (by decide)
  · exact (c6_hole_thickness_and_postshift doorSt doorStAdjusted 10 10 (-1)
      (by decide)).2 hallBox "door" backDoor

/-! ## Finite unfoldings of the adjacency map

The claims C3 and C4 quantify over well-formed inputs: acyclic adjacency with
every referenced record present.  An acyclic adjacency map unfolds, from the
root, into a finite tree; the hypotheses of the corresponding theorems take
such a tree explicitly (`matchesDeps` says the tree is exactly the unfolding
of the dependents map, and distinctness of its node names is the acyclicity /
no-sharing condition). -/

/-- A finite unfolding of the dependents map: a node name and the subtrees of
its dependents, in list order. -/
inductive LTree where
  | node (name : String) (children : List LTree)

/-- The name at the root of the tree. -/
def LTree.rootName : LTree → String
  | .node n _ => n

mutual

/-- All names in the tree, in depth-first pre-order. -/
def LTree.names : LTree → List String
  | .node n cs => n :: namesAll cs

/-- All names in a forest, in depth-first pre-order. -/
def namesAll : List LTree → List String
  | [] => []
  | c :: cs => LTree.names c ++ namesAll cs

end

mutual

/-- Height of the tree (number of levels). -/
def LTree.depth : LTree → Nat
  | .node _ cs => depthAll cs + 1

/-- Height of a forest. -/
def depthAll : List LTree → Nat
  | [] => 0
  | c :: cs => max (LTree.depth c) (depthAll cs)

end

mutual

/-- Number of nodes in the tree. -/
def LTree.size : LTree → Nat
  | .node _ cs => sizeAll cs + 1

/-- Number of nodes in a forest. -/
def sizeAll : List LTree → Nat
  | [] => 0
  | c :: cs => LTree.size c + sizeAll cs

end

/-- The dependents of `n` in the map (the empty list when `n` has no entry,
matching the `if box.name in dependents` guard of the walk). -/
def childrenOf (deps : Deps) (n : String) : List String :=
  (alistGet deps n).getD []

mutual

/-- The tree is exactly the unfolding of the dependents map from its root:
at every node, the map's dependents list for that name is the list of child
root names. -/
def matchesDeps (deps : Deps) : LTree → Bool
  | .node n cs => (childrenOf deps n == cs.map LTree.rootName) && matchesAll deps cs

/-- Forest version of `matchesDeps`. -/
def matchesAll (deps : Deps) : List LTree → Bool
  | [] => true
  | c :: cs => matchesDeps deps c && matchesAll deps cs

end

/-- Does the name denote a Box record in the layout map? -/
def isBoxName (st : Boxes) (n : String) : Bool :=
  match alistGet st n with
  | some (Record.box _) => true
  | _ => false

/-- Does the name denote a Hole record in the layout map? -/
def isHoleName (st : Boxes) (n : String) : Bool :=
  match alistGet st n with
  | some (Record.hole _) => true
  | _ => false

mutual

/-- The names of Box records among the strict descendants of the root, in the
order the resolver sets their positions (depth-first pre-order). -/
def descBox (st : Boxes) : LTree → List String
  | .node _ cs => descBoxAll st cs

/-- Forest version of `descBox`: each root, then its descendants. -/
def descBoxAll (st : Boxes) : List LTree → List String
  | [] => []
  | c :: cs =>
    (if isBoxName st (LTree.rootName c) then [LTree.rootName c] else [])
      ++ descBox st c ++ descBoxAll st cs

end

/-- The full pre-order of Box names in the tree, root included. -/
def preBox (st : Boxes) (t : LTree) : List String :=
  (if isBoxName st t.rootName then [t.rootName] else []) ++ descBox st t

/-- Structural well-formedness of one tree node with respect to the layout
map: the record exists, a node with dependents is a Box (so the walk can read
its position and append to its hole list), and a Box's offset is numeric (so
the resolver's offset arithmetic cannot raise; compare C9). -/
def wfNodeB (st : Boxes) (deps : Deps) (n : String) : Bool :=
  (alistGet st n).isSome &&
  ((childrenOf deps n).isEmpty || isBoxName st n) &&
  (match alistGet st n with
   | some (Record.box b) => match b.offset with | PyVal.num _ => true | _ => false
   | _ => true)

/-! ### Induction principle for LTree -/

theorem size_le_sizeAll : ∀ {cs : List LTree} {c : LTree}, c ∈ cs →
    LTree.size c ≤ sizeAll cs := by
  intro cs
  induction cs with
  | nil => intro c h; cases h
  | cons d cs ih =>
    intro c h
    rcases List.mem_cons.mp h with rfl | h2
    · simp [sizeAll]
    · have := ih h2
      simp [sizeAll]
      omega

/-- Member-wise induction on LTree (the nested-inductive recursor, packaged
through a size measure). -/
theorem LTree.recMem {motive : LTree → Prop}
    (ind : ∀ n cs, (∀ c, c ∈ cs → motive c) → motive (LTree.node n cs)) :
    ∀ t, motive t := by
  have key : ∀ k t, LTree.size t ≤ k → motive t := by
    intro k
    induction k with
    | zero =>
      intro t ht
      cases t with
      | node n cs => simp [LTree.size] at ht
    | succ k ih =>
      intro t ht
      cases t with
      | node n cs =>
        refine ind n cs (fun c hc => ih c ?_)
        have h1 := size_le_sizeAll hc
        simp [LTree.size] at ht
        omega
  intro t
  exact key (LTree.size t) t le_rfl

/-! ### The walk only changes positions and hole lists -/

/-- The walk-invariant part of two optional records: both absent, or both
Box records agreeing on everything except position and hole list, or equal
non-Box records. -/
def staticRel : Option Record → Option Record → Prop
  | none, none => True
  | some (Record.box b), some (Record.box b2) =>
    b2.box_type = b.box_type ∧ b2.dimensions = b.dimensions ∧ b2.adjacent = b.adjacent ∧
    b2.direction = b.direction ∧ b2.alignment = b.alignment ∧ b2.offset = b.offset ∧
    b2.colour = b.colour
  | some (Record.hole h), some (Record.hole h2) => h = h2
  | some (Record.const c), some (Record.const c2) => c = c2
  | some (Record.typeRow d), some (Record.typeRow d2) => d = d2
  | some (Record.custom d), some (Record.custom d2) => d = d2
  | _, _ => False

/-- Pointwise `staticRel` between two layout maps: what the resolver's walk
preserves. -/
def SameStatic (st st2 : Boxes) : Prop :=
  ∀ n, staticRel (alistGet st n) (alistGet st2 n)

theorem staticRel_refl (o : Option Record) : staticRel o o := by
  rcases o with _ | r
  · trivial
  · rcases r with b | h | c | d | d <;> simp [staticRel]

theorem staticRel_some_none (r : Record) : ¬ staticRel (some r) none := by
  rcases r with b | h | c | d | d <;> exact fun h => h

theorem staticRel_none_some (r : Record) : ¬ staticRel none (some r) := by
  rcases r with b | h | c | d | d <;> exact fun h => h

theorem staticRel_trans {o1 o2 o3 : Option Record}
    (h1 : staticRel o1 o2) (h2 : staticRel o2 o3) : staticRel o1 o3 := by
  rcases o1 with _ | r1 <;> rcases o2 with _ | r2 <;> rcases o3 with _ | r3
  · trivial
  · exact absurd h2 (staticRel_none_some _)
  · exact absurd h1 (staticRel_none_some _)
  · exact absurd h1 (staticRel_none_some _)
  · exact absurd h1 (staticRel_some_none _)
  · exact absurd h1 (staticRel_some_none _)
  · exact absurd h2 (staticRel_some_none _)
  · rcases r1 with b1 | hh1 | c1 | d1 | d1 <;> rcases r2 with b2 | hh2 | c2 | d2 | d2 <;>
      rcases r3 with b3 | hh3 | c3 | d3 | d3 <;>
      first
        | exact False.elim h1
        | exact False.elim h2
        | simp_all [staticRel]

theorem sameStatic_refl (st : Boxes) : SameStatic st st :=
  fun n => staticRel_refl _

theorem sameStatic_trans {st1 st2 st3 : Boxes}
    (h1 : SameStatic st1 st2) (h2 : SameStatic st2 st3) : SameStatic st1 st3 :=
  fun n => staticRel_trans (h1 n) (h2 n)

theorem isBoxName_congr {st st2 : Boxes} (h : SameStatic st st2) (n : String) :
    isBoxName st n = isBoxName st2 n := by
  have := h n
  unfold isBoxName
  rcases h1 : alistGet st n with _ | r <;> rcases h2 : alistGet st2 n with _ | r2 <;>
    rw [h1, h2] at this <;>
    try rfl
  · rcases r2 with b | hh | c | d | d <;> simp [staticRel] at this
  · rcases r with b | hh | c | d | d <;> simp [staticRel] at this
  · rcases r with b | hh | c | d | d <;> rcases r2 with b2 | h2' | c2 | d2 | d2 <;>
      simp [staticRel] at this <;> rfl

theorem isHoleName_congr {st st2 : Boxes} (h : SameStatic st st2) (n : String) :
    isHoleName st n = isHoleName st2 n := by
  have := h n
  unfold isHoleName
  rcases h1 : alistGet st n with _ | r <;> rcases h2 : alistGet st2 n with _ | r2 <;>
    rw [h1, h2] at this <;>
    try rfl
  · rcases r2 with b | hh | c | d | d <;> simp [staticRel] at this
  · rcases r with b | hh | c | d | d <;> simp [staticRel] at this
  · rcases r with b | hh | c | d | d <;> rcases r2 with b2 | h2' | c2 | d2 | d2 <;>
      simp [staticRel] at this <;> rfl

theorem isSome_congr {st st2 : Boxes} (h : SameStatic st st2) (n : String) :
    (alistGet st n).isSome = (alistGet st2 n).isSome := by
  have := h n
  rcases h1 : alistGet st n with _ | r <;> rcases h2 : alistGet st2 n with _ | r2 <;>
    rw [h1, h2] at this <;> try rfl
  · exact absurd this (by rcases r2 with b | hh | c | d | d <;> simp [staticRel])
  · exact absurd this (by rcases r with b | hh | c | d | d <;> simp [staticRel])

theorem offset_num_congr {st st2 : Boxes} (h : SameStatic st st2) (n : String) :
    (match alistGet st n with
     | some (Record.box b) => match b.offset with | PyVal.num _ => true | _ => false
     | _ => true) =
    (match alistGet st2 n with
     | some (Record.box b) => match b.offset with | PyVal.num _ => true | _ => false
     | _ => true) := by
  have := h n
  rcases h1 : alistGet st n with _ | r <;> rcases h2 : alistGet st2 n with _ | r2 <;>
    rw [h1, h2] at this <;> try rfl
  · exact absurd this (by rcases r2 with b | hh | c | d | d <;> simp [staticRel])
  · exact absurd this (by rcases r with b | hh | c | d | d <;> simp [staticRel])
  · rcases r with b | hh | c | d | d <;> rcases r2 with b2 | h2' | c2 | d2 | d2 <;>
      simp [staticRel] at this <;> try rfl
    show (match b.offset with | PyVal.num _ => true | _ => false) =
      (match b2.offset with | PyVal.num _ => true | _ => false)
    rw [this.2.2.2.2.2.1]

theorem wfNodeB_congr {st st2 : Boxes} (h : SameStatic st st2) (deps : Deps) (n : String) :
    wfNodeB st deps n = wfNodeB st2 deps n := by
  unfold wfNodeB
  rw [isSome_congr h, isBoxName_congr h, offset_num_congr h]

/-! ### Update lemmas -/

theorem alistGet_alistSet {α : Type} : ∀ (l : List (String × α)) (k : String) (v : α),
    alistGet (alistSet l k v) k = (alistGet l k).map (fun _ => v) := by
  intro l
  induction l with
  | nil => intro k v; rfl
  | cons p rest ih =>
    intro k v
    rcases p with ⟨k1, r⟩
    by_cases h1 : k1 = k
    · subst h1; simp [alistSet, alistGet]
    · simp only [alistSet, alistGet, if_neg h1]
      exact ih k v

theorem alistGet_alistSet_ne {α : Type} : ∀ (l : List (String × α)) (k m : String) (v : α),
    k ≠ m → alistGet (alistSet l k v) m = alistGet l m := by
  intro l
  induction l with
  | nil => intro k m v _; rfl
  | cons p rest ih =>
    intro k m v h
    rcases p with ⟨k1, r⟩
    by_cases h1 : k1 = k
    · subst h1
      simp only [alistSet, if_pos rfl, alistGet, if_neg h]
      exact ih k1 m v h
    · simp only [alistSet, if_neg h1, alistGet]
      by_cases h2 : k1 = m
      · simp only [if_pos h2]
      · simp only [if_neg h2]
        exact ih k m v h

theorem sameStatic_set_box {st : Boxes} {k : String} {b b2 : Box}
    (hk : alistGet st k = some (Record.box b))
    (hstat : b2.box_type = b.box_type ∧ b2.dimensions = b.dimensions ∧
      b2.adjacent = b.adjacent ∧ b2.direction = b.direction ∧ b2.alignment = b.alignment ∧
      b2.offset = b.offset ∧ b2.colour = b.colour) :
    SameStatic st (alistSet st k (Record.box b2)) := by
  intro n
  by_cases hn : k = n
  · subst hn
    rw [alistGet_alistSet, hk]
    exact hstat
  · rw [alistGet_alistSet_ne _ _ _ _ hn]
    exact staticRel_refl _

theorem filter_isHoleName_congr {st st2 : Boxes} (h : SameStatic st st2) :
    ∀ l : List String,
      l.filter (fun k => isHoleName st k) = l.filter (fun k => isHoleName st2 k) := by
  intro l
  induction l with
  | nil => rfl
  | cons a l ih => simp only [List.filter_cons, isHoleName_congr h, ih]

theorem descBoxAll_congr {st st2 : Boxes} (h : SameStatic st st2) :
    ∀ cs : List LTree, (∀ c ∈ cs, descBox st c = descBox st2 c) →
      descBoxAll st cs = descBoxAll st2 cs := by
  intro cs
  induction cs with
  | nil => intro _; rfl
  | cons c cs ih =>
    intro hmem
    simp only [descBoxAll]
    rw [isBoxName_congr h, hmem c (by simp),
        ih (fun c2 hc2 => hmem c2 (by simp [hc2]))]

theorem descBox_congr {st st2 : Boxes} (h : SameStatic st st2) :
    ∀ t, descBox st t = descBox st2 t := by
  refine LTree.recMem ?_
  intro n cs ih
  simp only [descBox]
  exact descBoxAll_congr h cs ih

/-! ### Totality of one dependent's resolution against a Box anchor -/

theorem resolveAxis_box_total (a b : Box) (q : ℚ) (ho : b.offset = PyVal.num q) (i : Fin 3) :
    ∃ v, resolveAxis (Record.box a) b i = some v := by
  obtain ⟨v, hv⟩ := axisAfterDirection_box_total a b i
  unfold resolveAxis
  rw [hv]
  unfold axisAfterAlignment
  simp only [recPosition, recDimensions, ho, addOffset]
  by_cases hl : pyIn (alignLow i) b.alignment <;>
    by_cases hh : pyIn (alignHigh i) b.alignment <;> simp [hl, hh]

theorem resolveBox_box_total (a b : Box) (q : ℚ) (ho : b.offset = PyVal.num q) :
    ∃ p, resolveBox (Record.box a) b = some { b with position := p } := by
  obtain ⟨v0, h0⟩ := resolveAxis_box_total a b q ho 0
  obtain ⟨v1, h1⟩ := resolveAxis_box_total a b q ho 1
  obtain ⟨v2, h2⟩ := resolveAxis_box_total a b q ho 2
  refine ⟨⟨v0, v1, v2⟩, ?_⟩
  unfold resolveBox
  rw [h0, h1, h2]

/-! ### Unfolding lemmas for the walk -/

theorem walkKidsWith_nil (walker : Boxes → String → Option (Boxes × List String))
    (st : Boxes) (anchor : String) :
    walkKidsWith walker st anchor [] = some (st, []) := rfl

theorem walkKidsWith_cons (walker : Boxes → String → Option (Boxes × List String))
    (st : Boxes) (anchor kid : String) (rest : List String) :
    walkKidsWith walker st anchor (kid :: rest) =
      match alistGet st kid with
      | none => none
      | some kidRec =>
        match applyKid st anchor kid kidRec with
        | none => none
        | some (st1, ev) =>
          match walker st1 kid with
          | none => none
          | some (st2, tr1) =>
            match walkKidsWith walker st2 anchor rest with
            | none => none
            | some (st3, tr2) => some (st3, ev ++ tr1 ++ tr2) := rfl

theorem position_dependents_no_entry (deps : Deps) (fuel : Nat) (st : Boxes) (name : String)
    (h : alistGet deps name = none) :
    position_dependents deps fuel st name = some (st, []) := by
  cases fuel <;> simp [position_dependents, h]

theorem position_dependents_succ (deps : Deps) (f : Nat) (st : Boxes) (name : String)
    (kids : List String) (h : alistGet deps name = some kids) :
    position_dependents deps (Nat.succ f) st name =
      walkKidsWith (fun st2 kid => position_dependents deps f st2 kid) st name kids := by
  simp [position_dependents, h]

/-! ### Extraction helpers -/

theorem isBoxName_exists {st : Boxes} {n : String} (h : isBoxName st n = true) :
    ∃ b, alistGet st n = some (Record.box b) := by
  unfold isBoxName at h
  rcases h1 : alistGet st n with _ | r <;> rw [h1] at h
  · simp at h
  · rcases r with b | hh | c | d | d
    · exact ⟨b, rfl⟩
    all_goals simp at h

theorem isBoxName_of_lookup {st : Boxes} {n : String} {b : Box}
    (h : alistGet st n = some (Record.box b)) : isBoxName st n = true := by
  unfold isBoxName
  rw [h]

theorem isHoleName_of_lookup {st : Boxes} {n : String} {hr : Hole}
    (h : alistGet st n = some (Record.hole hr)) : isHoleName st n = true := by
  unfold isHoleName
  rw [h]

theorem not_isHoleName_of_box {st : Boxes} {n : String} {b : Box}
    (h : alistGet st n = some (Record.box b)) : isHoleName st n = false := by
  unfold isHoleName
  rw [h]

theorem not_isBoxName_of_hole {st : Boxes} {n : String} {hr : Hole}
    (h : alistGet st n = some (Record.hole hr)) : isBoxName st n = false := by
  unfold isBoxName
  rw [h]

theorem wfNodeB_parts {st : Boxes} {deps : Deps} {n : String}
    (h : wfNodeB st deps n = true) :
    (alistGet st n).isSome = true ∧
    (childrenOf deps n ≠ [] → isBoxName st n = true) ∧
    (∀ b, alistGet st n = some (Record.box b) → ∃ q, b.offset = PyVal.num q) := by
  unfold wfNodeB at h
  simp only [Bool.and_eq_true, Bool.or_eq_true] at h
  obtain ⟨⟨h1, h2⟩, h3⟩ := h
  refine ⟨h1, ?_, ?_⟩
  · intro hne
    rcases h2 with h2 | h2
    · exact absurd (List.isEmpty_iff.mp h2) hne
    · exact h2
  · intro b hb
    rw [hb] at h3
    have h4 : (match b.offset with | PyVal.num _ => true | _ => false) = true := h3
    rcases hq : b.offset with s | q
    · rw [hq] at h4; simp at h4
    · exact ⟨q, rfl⟩

theorem matchesDeps_node {deps : Deps} {n : String} {cs : List LTree}
    (h : matchesDeps deps (LTree.node n cs) = true) :
    childrenOf deps n = cs.map LTree.rootName ∧ matchesAll deps cs = true := by
  simp only [matchesDeps, Bool.and_eq_true, beq_iff_eq] at h
  exact h

theorem matchesAll_cons {deps : Deps} {c : LTree} {cs : List LTree}
    (h : matchesAll deps (c :: cs) = true) :
    matchesDeps deps c = true ∧ matchesAll deps cs = true := by
  simp only [matchesAll, Bool.and_eq_true] at h
  exact h

theorem names_node (n : String) (cs : List LTree) :
    LTree.names (LTree.node n cs) = n :: namesAll cs := by
  simp [LTree.names]

theorem namesAll_cons (c : LTree) (cs : List LTree) :
    namesAll (c :: cs) = LTree.names c ++ namesAll cs := by
  simp [namesAll]

theorem rootName_mem_names (t : LTree) : t.rootName ∈ t.names := by
  cases t with
  | node n cs => simp [LTree.names, LTree.rootName]

theorem depth_node (n : String) (cs : List LTree) :
    LTree.depth (LTree.node n cs) = depthAll cs + 1 := by
  simp [LTree.depth]

theorem depthAll_cons (c : LTree) (cs : List LTree) :
    depthAll (c :: cs) = max (LTree.depth c) (depthAll cs) := by
  simp [depthAll]

theorem descBox_node (st : Boxes) (n : String) (cs : List LTree) :
    descBox st (LTree.node n cs) = descBoxAll st cs := by
  simp [descBox]

theorem descBoxAll_cons (st : Boxes) (c : LTree) (cs : List LTree) :
    descBoxAll st (c :: cs) =
      (if isBoxName st (LTree.rootName c) then [LTree.rootName c] else [])
        ++ descBox st c ++ descBoxAll st cs := by
  simp [descBoxAll]

theorem depth_pos (t : LTree) : 1 ≤ LTree.depth t := by
  cases t with
  | node n cs => simp [LTree.depth]

/-! ### The walk's contract over a finite unfolding of the dependents map -/

/-- What `position_dependents` does on a subtree rooted at `t.rootName`, for
any fuel covering the subtree's depth: it returns, the set-position trace is
the pre-order of the Box descendants, only positions and hole lists change,
records outside the subtree are untouched, every Box node's hole list gets
exactly its Hole dependents appended in order (the root's position is not
re-set), and Hole records are never modified. -/
def WalkSpec (deps : Deps) (t : LTree) : Prop :=
  ∀ fuel st,
    matchesDeps deps t = true →
    (LTree.names t).Nodup →
    (∀ n, n ∈ LTree.names t → wfNodeB st deps n = true) →
    LTree.depth t ≤ fuel →
    ∃ st2 tr, position_dependents deps fuel st t.rootName = some (st2, tr) ∧
      tr = descBox st t ∧
      SameStatic st st2 ∧
      (∀ m, ¬ m ∈ LTree.names t → alistGet st2 m = alistGet st m) ∧
      (∀ m b, m ∈ LTree.names t → alistGet st m = some (Record.box b) →
        ∃ b2, alistGet st2 m = some (Record.box b2) ∧
          b2.holes = b.holes ++ List.filter (fun k => isHoleName st k) (childrenOf deps m) ∧
          (m = t.rootName → b2.position = b.position)) ∧
      (∀ m h, alistGet st m = some (Record.hole h) →
        alistGet st2 m = some (Record.hole h)) ∧
      (∀ m c, alistGet st m = some (Record.const c) →
        alistGet st2 m = some (Record.const c))

/-- The corresponding contract for the dependents loop of one anchor over a
forest of sub-unfoldings. -/
def KidsSpec (deps : Deps) (cs : List LTree) : Prop :=
  ∀ fuel st anchor,
    matchesAll deps cs = true →
    (namesAll cs).Nodup →
    ¬ anchor ∈ namesAll cs →
    isBoxName st anchor = true →
    (∀ n, n ∈ namesAll cs → wfNodeB st deps n = true) →
    depthAll cs ≤ fuel →
    ∃ st2 tr,
      walkKidsWith (fun s2 k => position_dependents deps fuel s2 k) st anchor
        (cs.map LTree.rootName) = some (st2, tr) ∧
      tr = descBoxAll st cs ∧
      SameStatic st st2 ∧
      (∀ m, ¬ m ∈ namesAll cs → m ≠ anchor → alistGet st2 m = alistGet st m) ∧
      (∀ ab, alistGet st anchor = some (Record.box ab) →
        alistGet st2 anchor = some (Record.box { ab with holes := ab.holes ++ List.filter (fun k => isHoleName st k) (cs.map LTree.rootName) })) ∧
      (∀ m b, m ∈ namesAll cs → alistGet st m = some (Record.box b) →
        ∃ b2, alistGet st2 m = some (Record.box b2) ∧
          b2.holes = b.holes ++ List.filter (fun k => isHoleName st k) (childrenOf deps m)) ∧
      (∀ m h, alistGet st m = some (Record.hole h) →
        alistGet st2 m = some (Record.hole h)) ∧
      (∀ m c, alistGet st m = some (Record.const c) →
        alistGet st2 m = some (Record.const c))

theorem kidsSpec_nil (deps : Deps) : KidsSpec deps [] := by
  intro fuel st anchor _ _ _ _ _ _
  refine ⟨st, [], ?_, ?_, sameStatic_refl st, ?_, ?_, ?_, ?_, ?_⟩
  · simp [walkKidsWith_nil]
  · simp [descBoxAll]
  · intro m _ _; rfl
  · intro ab hab
    rw [hab]
    simp
  · intro m b hm _; simp [namesAll] at hm
  · intro m h hm; exact hm
  · intro m c h; exact h

theorem descBoxAll_congr2 {st st2 : Boxes} (h : SameStatic st st2) (cs : List LTree) :
    descBoxAll st cs = descBoxAll st2 cs :=
  descBoxAll_congr h cs (fun c _ => descBox_congr h c)

/-- Composition core for the dependents loop: given the effect of one
`applyKid` step (summarised by the seven step hypotheses), processing the
head dependent's subtree and then the remaining dependents satisfies the
loop contract. -/
theorem kidsSpec_cons_core (deps : Deps) (c : LTree) (cs2 : List LTree)
    (hcWS : WalkSpec deps c) (hrest : KidsSpec deps cs2)
    (fuel : Nat) (st st1 : Boxes) (anchor : String) (ev : List String)
    (hmc : matchesDeps deps c = true) (hmcs : matchesAll deps cs2 = true)
    (hndc : (LTree.names c).Nodup) (hndcs : (namesAll cs2).Nodup)
    (hdisj : (LTree.names c).Disjoint (namesAll cs2))
    (hnac : ¬ anchor ∈ LTree.names c) (hnacs : ¬ anchor ∈ namesAll cs2)
    (hab : isBoxName st anchor = true)
    (hwfc : ∀ n, n ∈ LTree.names c → wfNodeB st deps n = true)
    (hwfcs : ∀ n, n ∈ namesAll cs2 → wfNodeB st deps n = true)
    (hfc : LTree.depth c ≤ fuel) (hfcs : depthAll cs2 ≤ fuel)
    (hs01 : SameStatic st st1)
    (hev : ev = if isBoxName st (LTree.rootName c) then [LTree.rootName c] else [])
    (hunch0 : ∀ m, m ≠ LTree.rootName c → m ≠ anchor → alistGet st1 m = alistGet st m)
    (hanchor0 : ∀ ab0, alistGet st anchor = some (Record.box ab0) →
      alistGet st1 anchor = some (Record.box { ab0 with holes := ab0.holes ++ (if isHoleName st (LTree.rootName c) then [LTree.rootName c] else []) }))
    (hkid0 : ∀ b, alistGet st (LTree.rootName c) = some (Record.box b) →
      ∃ p, alistGet st1 (LTree.rootName c) = some (Record.box { b with position := p }))
    (hkidhole0 : ∀ hr, alistGet st (LTree.rootName c) = some (Record.hole hr) →
      alistGet st1 (LTree.rootName c) = some (Record.hole hr))
    (hkidconst0 : ∀ cc, alistGet st (LTree.rootName c) = some (Record.const cc) →
      alistGet st1 (LTree.rootName c) = some (Record.const cc)) :
    ∃ st3 tr23,
      (match position_dependents deps fuel st1 (LTree.rootName c) with
       | none => none
       | some (st2, tr1) =>
         match walkKidsWith (fun s2 k => position_dependents deps fuel s2 k) st2 anchor
             (cs2.map LTree.rootName) with
         | none => none
         | some (st3, tr2) => some (st3, ev ++ tr1 ++ tr2)) = some (st3, tr23) ∧
      tr23 = descBoxAll st (c :: cs2) ∧
      SameStatic st st3 ∧
      (∀ m, ¬ m ∈ namesAll (c :: cs2) → m ≠ anchor → alistGet st3 m = alistGet st m) ∧
      (∀ ab, alistGet st anchor = some (Record.box ab) →
        alistGet st3 anchor = some (Record.box { ab with holes := ab.holes ++ List.filter (fun k => isHoleName st k) ((c :: cs2).map LTree.rootName) })) ∧
      (∀ m b, m ∈ namesAll (c :: cs2) → alistGet st m = some (Record.box b) →
        ∃ b2, alistGet st3 m = some (Record.box b2) ∧
          b2.holes = b.holes ++ List.filter (fun k => isHoleName st k) (childrenOf deps m)) ∧
      (∀ m h, alistGet st m = some (Record.hole h) →
        alistGet st3 m = some (Record.hole h)) ∧
      (∀ m cc, alistGet st m = some (Record.const cc) →
        alistGet st3 m = some (Record.const cc)) := by
  have hkidmem : LTree.rootName c ∈ LTree.names c := rootName_mem_names c
  have hanchor_ne_kid : anchor ≠ LTree.rootName c := fun h => hnac (h ▸ hkidmem)
  obtain ⟨ab, hab2⟩ := isBoxName_exists hab
  obtain ⟨st2, tr1, hwalk1, htr1, hs12, hunch1, hbox1, hhole1, hconst1⟩ :=
    hcWS fuel st1 hmc hndc
      (fun n hn => by rw [← wfNodeB_congr hs01]; exact hwfc n hn) hfc
  have hs02 := sameStatic_trans hs01 hs12
  obtain ⟨st3, tr2, hwalk2, htr2, hs23, hunch2, hanch2, hbox2, hhole2, hconst2⟩ :=
    hrest fuel st2 anchor hmcs hndcs hnacs
      (by rw [← isBoxName_congr hs02]; exact hab)
      (fun n hn => by rw [← wfNodeB_congr hs02]; exact hwfcs n hn) hfcs
  have hs03 := sameStatic_trans hs02 hs23
  refine ⟨st3, ev ++ tr1 ++ tr2, ?_, ?_, hs03, ?_, ?_, ?_, ?_, ?_⟩
  · simp only [hwalk1, hwalk2]
  · rw [descBoxAll_cons, hev, htr1, htr2, ← descBox_congr hs01 c, ← descBoxAll_congr2 hs02 cs2]
  · intro m hm2 hmanchor
    rw [namesAll_cons, List.mem_append] at hm2
    push_neg at hm2
    obtain ⟨hm2c, hm2cs⟩ := hm2
    rw [hunch2 m hm2cs hmanchor, hunch1 m hm2c,
        hunch0 m (fun h => hm2c (h ▸ hkidmem)) hmanchor]
  · intro ab0 hab0
    have h1 := hanchor0 ab0 hab0
    have h2 : alistGet st2 anchor = some (Record.box { ab0 with holes := ab0.holes ++ (if isHoleName st (LTree.rootName c) then [LTree.rootName c] else []) }) := by
      rw [hunch1 anchor hnac]; exact h1
    have h3 := hanch2 _ h2
    rw [h3]
    refine congrArg some (congrArg Record.box ?_)
    simp only [List.map_cons, List.filter_cons]
    rw [← filter_isHoleName_congr hs02]
    by_cases hkh : isHoleName st (LTree.rootName c) = true
    · rw [hkh]
      simp [List.append_assoc]
    · rw [Bool.not_eq_true] at hkh
      rw [hkh]
      simp
  · intro m b0 hmmem hmb
    rw [namesAll_cons, List.mem_append] at hmmem
    rcases hmmem with hmc2 | hmcs2
    · by_cases hmk : m = LTree.rootName c
      · subst hmk
        obtain ⟨p, hp⟩ := hkid0 b0 hmb
        obtain ⟨b2, hb2, hbh, _⟩ := hbox1 _ _ hkidmem hp
        have hb3 : alistGet st3 (LTree.rootName c) = some (Record.box b2) := by
          rw [hunch2 _ (hdisj hkidmem) (Ne.symm hanchor_ne_kid)]; exact hb2
        refine ⟨b2, hb3, ?_⟩
        rw [hbh, ← filter_isHoleName_congr hs01]
      · have hm_ne_anchor : m ≠ anchor := fun h => hnac (h ▸ hmc2)
        have h1 : alistGet st1 m = some (Record.box b0) := by
          rw [hunch0 m hmk hm_ne_anchor]; exact hmb
        obtain ⟨b2, hb2, hbh, _⟩ := hbox1 m b0 hmc2 h1
        have hb3 : alistGet st3 m = some (Record.box b2) := by
          rw [hunch2 m (hdisj hmc2) hm_ne_anchor]; exact hb2
        refine ⟨b2, hb3, ?_⟩
        rw [hbh, ← filter_isHoleName_congr hs01]
    · have hm_notc : ¬ m ∈ LTree.names c := fun h => hdisj h hmcs2
      have hm_ne_anchor : m ≠ anchor := fun h => hnacs (h ▸ hmcs2)
      have h1 : alistGet st1 m = some (Record.box b0) := by
        rw [hunch0 m (fun h => hm_notc (h ▸ hkidmem)) hm_ne_anchor]; exact hmb
      have h2 : alistGet st2 m = some (Record.box b0) := by
        rw [hunch1 m hm_notc]; exact h1
      obtain ⟨b2, hb3, hbh⟩ := hbox2 m b0 hmcs2 h2
      refine ⟨b2, hb3, ?_⟩
      rw [hbh, ← filter_isHoleName_congr hs02]
  · intro m hr hmh
    have hm_ne_anchor : m ≠ anchor := by
      intro h
      subst h
      rw [hab2] at hmh
      simp at hmh
    by_cases hmk : m = LTree.rootName c
    · subst hmk
      exact hhole2 _ hr (hhole1 _ hr (hkidhole0 hr hmh))
    · have h1 : alistGet st1 m = some (Record.hole hr) := by
        rw [hunch0 m hmk hm_ne_anchor]; exact hmh
      exact hhole2 m hr (hhole1 m hr h1)
  · intro m cc hmc3
    have hm_ne_anchor : m ≠ anchor := by
      intro h
      subst h
      rw [hab2] at hmc3
      simp at hmc3
    by_cases hmk : m = LTree.rootName c
    · subst hmk
      exact hconst2 _ cc (hconst1 _ cc (hkidconst0 cc hmc3))
    · have h1 : alistGet st1 m = some (Record.const cc) := by
        rw [hunch0 m hmk hm_ne_anchor]; exact hmc3
      exact hconst2 m cc (hconst1 m cc h1)

theorem kidsSpec_cons (deps : Deps) (c : LTree) (cs2 : List LTree)
    (hcWS : WalkSpec deps c) (hrest : KidsSpec deps cs2) : KidsSpec deps (c :: cs2) := by
  intro fuel st anchor hm hnd hna hab hwf hfuel
  obtain ⟨hmc, hmcs⟩ := matchesAll_cons hm
  rw [namesAll_cons] at hnd hna hwf
  rw [List.nodup_append] at hnd
  obtain ⟨hndc, hndcs, hdisj⟩ := hnd
  rw [List.mem_append] at hna
  push_neg at hna
  obtain ⟨hnac, hnacs⟩ := hna
  have hwfc : ∀ n, n ∈ LTree.names c → wfNodeB st deps n = true :=
    fun n hn => hwf n (List.mem_append.mpr (Or.inl hn))
  have hwfcs : ∀ n, n ∈ namesAll cs2 → wfNodeB st deps n = true :=
    fun n hn => hwf n (List.mem_append.mpr (Or.inr hn))
  rw [depthAll_cons, max_le_iff] at hfuel
  obtain ⟨hfc, hfcs⟩ := hfuel
  obtain ⟨ab, hab2⟩ := isBoxName_exists hab
  have hkidmem : LTree.rootName c ∈ LTree.names c := rootName_mem_names c
  have hanchor_ne_kid : anchor ≠ LTree.rootName c := fun h => hnac (h ▸ hkidmem)
  obtain ⟨hksome, hkchild, hkoff⟩ := wfNodeB_parts (hwfc _ hkidmem)
  rcases hkidrec : alistGet st (LTree.rootName c) with _ | kidRec
  · rw [hkidrec] at hksome; simp at hksome
  rcases kidRec with b | hr | cc | dd | dd
  · obtain ⟨q, hq⟩ := hkoff b hkidrec
    obtain ⟨p, hres⟩ := resolveBox_box_total ab b q hq
    have happly : applyKid st anchor (LTree.rootName c) (Record.box b) =
        some (alistSet st (LTree.rootName c) (Record.box { b with position := p }),
          [LTree.rootName c]) := by
      simp only [applyKid, hab2, hres]
    obtain ⟨st3, tr23, hcomp, htr, hss, hun, han, hbx, hhl, hcn⟩ :=
      kidsSpec_cons_core deps c cs2 hcWS hrest fuel st
        (alistSet st (LTree.rootName c) (Record.box { b with position := p })) anchor
        [LTree.rootName c]
        hmc hmcs hndc hndcs hdisj hnac hnacs hab hwfc hwfcs hfc hfcs
        (sameStatic_set_box hkidrec ⟨rfl, rfl, rfl, rfl, rfl, rfl, rfl⟩)
        (by rw [isBoxName_of_lookup hkidrec]; rfl)
        (fun m hm1 _ => alistGet_alistSet_ne st (LTree.rootName c) m _ (fun h => hm1 h.symm))
        (by
          intro ab0 hab0
          rw [alistGet_alistSet_ne st (LTree.rootName c) anchor _
            (fun h => hanchor_ne_kid h.symm), hab0, not_isHoleName_of_box hkidrec]
          simp)
        (by
          intro b' hb'
          rw [hkidrec] at hb'
          simp only [Option.some_inj, Record.box.injEq] at hb'
          subst hb'
          exact ⟨p, by rw [alistGet_alistSet, hkidrec]; rfl⟩)
        (by
          intro hr' hb'
          rw [hkidrec] at hb'
          simp at hb')
        (by
          intro cc' hb'
          rw [hkidrec] at hb'
          simp at hb')
    refine ⟨st3, tr23, ?_, htr, hss, hun, han, hbx, hhl, hcn⟩
    simp only [List.map_cons]
    rw [walkKidsWith_cons]
    simp only [hkidrec, happly]
    exact hcomp
  · have happly : applyKid st anchor (LTree.rootName c) (Record.hole hr) =
        some (alistSet st anchor
          (Record.box { ab with holes := ab.holes ++ [LTree.rootName c] }), []) := by
      simp only [applyKid, hab2]
    obtain ⟨st3, tr23, hcomp, htr, hss, hun, han, hbx, hhl, hcn⟩ :=
      kidsSpec_cons_core deps c cs2 hcWS hrest fuel st
        (alistSet st anchor (Record.box { ab with holes := ab.holes ++ [LTree.rootName c] }))
        anchor []
        hmc hmcs hndc hndcs hdisj hnac hnacs hab hwfc hwfcs hfc hfcs
        (sameStatic_set_box hab2 ⟨rfl, rfl, rfl, rfl, rfl, rfl, rfl⟩)
        (by rw [not_isBoxName_of_hole hkidrec]; rfl)
        (fun m _ hm2 => alistGet_alistSet_ne st anchor m _ (fun h => hm2 h.symm))
        (by
          intro ab0 hab0
          rw [hab2] at hab0
          simp only [Option.some_inj, Record.box.injEq] at hab0
          subst hab0
          rw [alistGet_alistSet, hab2, isHoleName_of_lookup hkidrec]
          rfl)
        (by
          intro b' hb'
          rw [hkidrec] at hb'
          simp at hb')
        (by
          intro hr' hb'
          rw [hkidrec] at hb'
          simp only [Option.some_inj, Record.hole.injEq] at hb'
          subst hb'
          rw [alistGet_alistSet_ne st anchor _ _ hanchor_ne_kid]
          exact hkidrec)
        (by
          intro cc' hb'
          rw [hkidrec] at hb'
          simp at hb')
    refine ⟨st3, tr23, ?_, htr, hss, hun, han, hbx, hhl, hcn⟩
    simp only [List.map_cons]
    rw [walkKidsWith_cons]
    simp only [hkidrec, happly]
    exact hcomp
  all_goals (
    obtain ⟨st3, tr23, hcomp, htr, hss, hun, han, hbx, hhl, hcn⟩ :=
      kidsSpec_cons_core deps c cs2 hcWS hrest fuel st st anchor []
        hmc hmcs hndc hndcs hdisj hnac hnacs hab hwfc hwfcs hfc hfcs
        (sameStatic_refl st)
        (by
          have hb : isBoxName st (LTree.rootName c) = false := by
            unfold isBoxName
            rw [hkidrec]
          rw [hb]
          rfl)
        (fun m _ _ => rfl)
        (by
          intro ab0 hab0
          have hh : isHoleName st (LTree.rootName c) = false := by
            unfold isHoleName
            rw [hkidrec]
          rw [hh, hab0]
          simp)
        (by
          intro b' hb'
          rw [hkidrec] at hb'
          simp at hb')
        (by
          intro hr' hb'
          rw [hkidrec] at hb'
          simp at hb')
        (by
          intro cc' hb'
          rw [hkidrec] at hb'
          first
            | (simp only [Option.some_inj, Record.const.injEq] at hb'
               rw [hkidrec, hb'])
            | simp at hb')
    refine ⟨st3, tr23, ?_, htr, hss, hun, han, hbx, hhl, hcn⟩
    simp only [List.map_cons]
    rw [walkKidsWith_cons]
    simp only [hkidrec]
    exact hcomp)

theorem walkKids_spec (deps : Deps) :
    ∀ cs : List LTree, (∀ c, c ∈ cs → WalkSpec deps c) → KidsSpec deps cs := by
  intro cs
  induction cs with
  | nil => exact fun _ => kidsSpec_nil deps
  | cons c cs2 ih =>
    intro h
    exact kidsSpec_cons deps c cs2 (h c (by simp))
      (ih (fun c2 hc2 => h c2 (by simp [hc2])))

/-- Master lemma: the walk satisfies its contract on every finite unfolding
of the dependents map. -/
theorem walk_spec (deps : Deps) : ∀ t, WalkSpec deps t := by
  refine LTree.recMem ?_
  intro n cs ih
  intro fuel st hm hnd hwf hfuel
  obtain ⟨hch, hmall⟩ := matchesDeps_node hm
  simp only [LTree.rootName, names_node] at hnd hwf ⊢
  have hleafCase : ∀ (hrun : position_dependents deps fuel st n = some (st, [])),
      cs = [] →
      ∃ st2 tr, position_dependents deps fuel st n = some (st2, tr) ∧
        tr = descBox st (LTree.node n cs) ∧
        SameStatic st st2 ∧
        (∀ m, ¬ m ∈ LTree.names (LTree.node n cs) → alistGet st2 m = alistGet st m) ∧
        (∀ m b, m ∈ LTree.names (LTree.node n cs) → alistGet st m = some (Record.box b) →
          ∃ b2, alistGet st2 m = some (Record.box b2) ∧
            b2.holes = b.holes ++ List.filter (fun k => isHoleName st k) (childrenOf deps m) ∧
            (m = (LTree.node n cs).rootName → b2.position = b.position)) ∧
        (∀ m h, alistGet st m = some (Record.hole h) →
          alistGet st2 m = some (Record.hole h)) ∧
        (∀ m c2, alistGet st m = some (Record.const c2) →
          alistGet st2 m = some (Record.const c2)) := by
    intro hrun hcs
    subst hcs
    have hchn : childrenOf deps n = [] := by
      rw [hch]; rfl
    refine ⟨st, [], hrun, ?_, sameStatic_refl st, ?_, ?_, ?_, ?_⟩
    · simp [descBox_node, descBoxAll]
    · intro m _; rfl
    · intro m b hmm hmb
      simp only [names_node, namesAll, List.mem_singleton] at hmm
      subst hmm
      refine ⟨b, hmb, ?_, fun _ => rfl⟩
      rw [hchn]
      simp
    · intro m h hmb; exact hmb
    · intro m c2 hc2; exact hc2
  rcases halist : alistGet deps n with _ | kids
  · have hcs : cs = [] := by
      have h0 : childrenOf deps n = [] := by
        unfold childrenOf; rw [halist]; rfl
      rw [h0] at hch
      exact List.map_eq_nil.mp hch.symm
    exact hleafCase (position_dependents_no_entry deps fuel st n halist) hcs
  · have hkids : kids = cs.map LTree.rootName := by
      have h0 : childrenOf deps n = kids := by
        unfold childrenOf; rw [halist]; rfl
      rw [h0] at hch
      exact hch
    rcases fuel with _ | f
    · exfalso
      have := depth_pos (LTree.node n cs)
      omega
    by_cases hcs : cs = []
    · refine hleafCase ?_ hcs
      rw [position_dependents_succ deps f st n kids halist, hkids, hcs]
      simp [walkKidsWith_nil]
    · have hbn : isBoxName st n = true := by
        apply (wfNodeB_parts (hwf n (by simp))).2.1
        rw [show childrenOf deps n = cs.map LTree.rootName from hch]
        simpa using hcs
      obtain ⟨hn_notin, hndcs⟩ := List.nodup_cons.mp hnd
      have hdep : depthAll cs ≤ f := by
        rw [depth_node] at hfuel
        omega
      obtain ⟨st2, tr, hrun, htr, hss, hun, han, hbx, hhl, hcn⟩ :=
        walkKids_spec deps cs ih f st n hmall hndcs hn_notin hbn
          (fun n2 hn2 => hwf n2 (by simp [hn2])) hdep
      refine ⟨st2, tr, ?_, ?_, hss, ?_, ?_, hhl, hcn⟩
      · rw [position_dependents_succ deps f st n kids halist, hkids]
        exact hrun
      · rw [htr, descBox_node]
      · intro m hm2
        simp only [names_node, List.mem_cons, not_or] at hm2
        exact hun m hm2.2 hm2.1
      · intro m b hm2 hmb
        simp only [names_node, List.mem_cons] at hm2
        rcases hm2 with rfl | hm3
        · refine ⟨_, han b hmb, ?_, fun _ => rfl⟩
          rw [hch]
        · obtain ⟨b2, hb2, hbh⟩ := hbx m b hm3 hmb
          refine ⟨b2, hb2, hbh, ?_⟩
          intro hmro
          exact absurd (hmro ▸ hm3) hn_notin

/-! ### Structure of the dependents map built by generate_tree -/

/-- The anchor names (keys) of the dependents map. -/
def depsKeys (d : Deps) : List String := d.map Prod.fst

/-- All dependent names across the map, in entry order. -/
def joinVals (d : Deps) : List String := (d.map Prod.snd).flatten

theorem joinVals_cons (k0 : String) (l0 : List String) (rest : Deps) :
    joinVals ((k0, l0) :: rest) = l0 ++ joinVals rest := rfl

theorem joinVals_append_single (d : Deps) (k : String) (v : List String) :
    joinVals (d ++ [(k, v)]) = joinVals d ++ v := by
  simp [joinVals]

theorem depsKeys_cons (k0 : String) (l0 : List String) (rest : Deps) :
    depsKeys ((k0, l0) :: rest) = k0 :: depsKeys rest := rfl

theorem alistGet_eq_none_of_not_mem {α : Type} :
    ∀ (l : List (String × α)) (k : String), ¬ k ∈ l.map Prod.fst → alistGet l k = none := by
  intro l
  induction l with
  | nil => intro k _; rfl
  | cons p rest ih =>
    intro k h
    rcases p with ⟨k0, r0⟩
    simp only [List.map_cons, List.mem_cons, not_or] at h
    simp only [alistGet, if_neg (fun h2 : k0 = k => h.1 h2.symm)]
    exact ih k h.2

theorem alistSet_id {α : Type} :
    ∀ (l : List (String × α)) (k : String) (v : α), alistGet l k = none → alistSet l k v = l := by
  intro l
  induction l with
  | nil => intro k v _; rfl
  | cons p rest ih =>
    intro k v h
    rcases p with ⟨k0, r0⟩
    by_cases h0 : k0 = k
    · simp [alistGet, h0] at h
    · simp only [alistGet, if_neg h0] at h
      simp only [alistSet, if_neg h0]
      rw [ih k v h]

theorem alistSet_keys {α : Type} :
    ∀ (l : List (String × α)) (k : String) (v : α),
      (alistSet l k v).map Prod.fst = l.map Prod.fst := by
  intro l
  induction l with
  | nil => intro k v; rfl
  | cons p rest ih =>
    intro k v
    rcases p with ⟨k0, r0⟩
    by_cases h0 : k0 = k <;> simp [alistSet, h0, ih k v]

theorem childrenOf_mem_joinVals :
    ∀ (d : Deps) (a x : String), x ∈ childrenOf d a → x ∈ joinVals d := by
  intro d
  induction d with
  | nil => intro a x h; simp [childrenOf, alistGet] at h
  | cons p rest ih =>
    intro a x h
    rcases p with ⟨k0, l0⟩
    rw [joinVals_cons, List.mem_append]
    by_cases h0 : k0 = a
    · left
      unfold childrenOf at h
      rw [show alistGet ((k0, l0) :: rest) a = some l0 from by simp [alistGet, h0]] at h
      exact h
    · right
      refine ih a x ?_
      unfold childrenOf at h ⊢
      rwa [show alistGet ((k0, l0) :: rest) a = alistGet rest a from by simp [alistGet, h0]] at h

theorem joinVals_split :
    ∀ (d : Deps) (k : String) (l : List String),
      (depsKeys d).Nodup → alistGet d k = some l →
      ∃ j1 j2, joinVals d = j1 ++ (l ++ j2) ∧
        ∀ v, joinVals (alistSet d k v) = j1 ++ (v ++ j2) := by
  intro d
  induction d with
  | nil => intro k l _ h; simp [alistGet] at h
  | cons p rest ih =>
    intro k l hnd h
    rcases p with ⟨k0, l0⟩
    rw [depsKeys_cons, List.nodup_cons] at hnd
    by_cases h0 : k0 = k
    · subst h0
      simp [alistGet] at h
      subst h
      refine ⟨[], joinVals rest, by simp [joinVals_cons], ?_⟩
      intro v
      have hnone : alistGet rest k0 = none :=
        alistGet_eq_none_of_not_mem rest k0 hnd.1
      have hstep : alistSet ((k0, l0) :: rest) k0 v = (k0, v) :: rest := by
        simp [alistSet, alistSet_id rest k0 v hnone]
      rw [hstep, joinVals_cons]
      simp
    · simp only [alistGet, if_neg h0] at h
      obtain ⟨j1, j2, hj, hset⟩ := ih k l hnd.2 h
      refine ⟨l0 ++ j1, j2, ?_, ?_⟩
      · rw [joinVals_cons, hj, List.append_assoc]
      · intro v
        simp only [alistSet, if_neg h0]
        rw [joinVals_cons, hset v, List.append_assoc]

theorem childrenOf_nodup :
    ∀ (d : Deps) (a : String), (joinVals d).Nodup → (childrenOf d a).Nodup := by
  intro d
  induction d with
  | nil => intro a _; simp [childrenOf, alistGet]
  | cons p rest ih =>
    intro a h
    rcases p with ⟨k0, l0⟩
    rw [joinVals_cons] at h
    by_cases h0 : k0 = a
    · unfold childrenOf
      rw [show alistGet ((k0, l0) :: rest) a = some l0 from by simp [alistGet, h0]]
      exact h.of_append_left
    · unfold childrenOf
      rw [show alistGet ((k0, l0) :: rest) a = alistGet rest a from by simp [alistGet, h0]]
      exact ih a h.of_append_right

theorem childrenOf_unique :
    ∀ (d : Deps) (a a2 x : String),
      (depsKeys d).Nodup → (joinVals d).Nodup →
      x ∈ childrenOf d a → x ∈ childrenOf d a2 → a = a2 := by
  intro d
  induction d with
  | nil => intro a a2 x _ _ h; simp [childrenOf, alistGet] at h
  | cons p rest ih =>
    intro a a2 x hk hj h1 h2
    rcases p with ⟨k0, l0⟩
    rw [depsKeys_cons, List.nodup_cons] at hk
    rw [joinVals_cons, List.nodup_append] at hj
    by_cases ha : k0 = a <;> by_cases ha2 : k0 = a2
    · rw [← ha, ← ha2]
    · exfalso
      unfold childrenOf at h1 h2
      rw [show alistGet ((k0, l0) :: rest) a = some l0 from by simp [alistGet, ha]] at h1
      rw [show alistGet ((k0, l0) :: rest) a2 = alistGet rest a2 from by
        simp [alistGet, ha2]] at h2
      exact hj.2.2 h1 (childrenOf_mem_joinVals rest a2 x h2)
    · exfalso
      unfold childrenOf at h1 h2
      rw [show alistGet ((k0, l0) :: rest) a2 = some l0 from by simp [alistGet, ha2]] at h2
      rw [show alistGet ((k0, l0) :: rest) a = alistGet rest a from by
        simp [alistGet, ha]] at h1
      exact hj.2.2 h2 (childrenOf_mem_joinVals rest a x h1)
    · refine ih a a2 x hk.2 hj.2.1 ?_ ?_
      · unfold childrenOf at h1 ⊢
        rwa [show alistGet ((k0, l0) :: rest) a = alistGet rest a from by
          simp [alistGet, ha]] at h1
      · unfold childrenOf at h2 ⊢
        rwa [show alistGet ((k0, l0) :: rest) a2 = alistGet rest a2 from by
          simp [alistGet, ha2]] at h2

theorem not_mem_of_alistGet_none {α : Type} :
    ∀ (l : List (String × α)) (k : String), alistGet l k = none → ¬ k ∈ l.map Prod.fst := by
  intro l
  induction l with
  | nil => intro k _ h; simp at h
  | cons p rest ih =>
    intro k hg h
    rcases p with ⟨k0, r0⟩
    by_cases h0 : k0 = k
    · simp [alistGet, h0] at hg
    · simp only [alistGet, if_neg h0] at hg
      simp only [List.map_cons, List.mem_cons] at h
      rcases h with h | h
      · exact h0 h.symm
      · exact ih k hg h

theorem alistPut_keys_nodup {α : Type} (l : List (String × α)) (k : String) (v : α)
    (h : (l.map Prod.fst).Nodup) : ((alistPut l k v).map Prod.fst).Nodup := by
  unfold alistPut
  rcases hg : alistGet l k with _ | v0
  · rw [List.map_append]
    simp only [List.map_cons, List.map_nil]
    rw [show l.map Prod.fst ++ [k] = l.map Prod.fst ++ k :: [] from rfl, List.nodup_middle]
    rw [List.nodup_cons]
    simp only [List.append_nil]
    exact ⟨not_mem_of_alistGet_none l k hg, h⟩
  · rw [alistSet_keys]
    exact h

theorem childrenOf_alistPut_ne (d : Deps) (a2 a : String) (v : List String) (hne : a2 ≠ a) :
    childrenOf (alistPut d a2 v) a = childrenOf d a := by
  unfold alistPut
  rcases hgg : alistGet d a2 with _ | l2
  · unfold childrenOf
    rcases hga : alistGet d a with _ | l
    · rw [alistGet_append_none hga]
      simp [alistGet, fun h : a2 = a => hne h]
    · rw [alistGet_append_some hga]
      try rw [hga]
  · unfold childrenOf
    rw [alistGet_alistSet_ne d a2 a v hne]

theorem childrenOf_alistPut_self (d : Deps) (a : String) (v : List String) :
    childrenOf (alistPut d a v) a = v := by
  unfold alistPut
  rcases hg : alistGet d a with _ | l
  · unfold childrenOf
    rw [alistGet_append_none hg]
    simp [alistGet]
  · unfold childrenOf
    rw [alistGet_alistSet, hg]
    rfl

/-- The anchor a record refers to, when it is a Box or a Hole. -/
def recAdj : Record → Option String
  | Record.box b => some b.adjacent
  | Record.hole h => some h.adjacent
  | _ => none

theorem gt_step_mem_insert (acc : Deps × Option String) (k : String) (r : Record) (a : String)
    (hadj : recAdj r = some a) (ha : a ≠ "start") :
    k ∈ childrenOf (generate_tree_step acc (k, r)).1 a := by
  rcases r with b | hr | _ | _ | _ <;> simp [recAdj] at hadj
  · unfold generate_tree_step
    simp only
    rw [if_neg (fun h => ha (hadj ▸ h)), hadj]
    rw [childrenOf_alistPut_self]
    simp
  · unfold generate_tree_step
    simp only
    rw [if_neg (fun h => ha (hadj ▸ h)), hadj]
    rw [childrenOf_alistPut_self]
    simp

theorem gt_step_mem_preserved (acc : Deps × Option String) (e : String × Record)
    (a x : String) (ha : a ≠ "start") (h : x ∈ childrenOf acc.1 a) :
    x ∈ childrenOf (generate_tree_step acc e).1 a := by
  rcases e with ⟨k, r⟩
  rcases r with b | hr | _ | _ | _
  · unfold generate_tree_step
    simp only
    by_cases hb : b.adjacent = "start"
    · rw [if_pos hb]
      rwa [childrenOf_alistPut_ne _ _ _ _ (fun h2 => ha h2.symm)]
    · rw [if_neg hb]
      by_cases hba : b.adjacent = a
      · subst hba
        rw [childrenOf_alistPut_self]
        exact List.mem_append.mpr (Or.inl (by unfold childrenOf at h; exact h))
      · rwa [childrenOf_alistPut_ne _ _ _ _ hba]
  · unfold generate_tree_step
    simp only
    by_cases hb : hr.adjacent = "start"
    · rw [if_pos hb]
      rwa [childrenOf_alistPut_ne _ _ _ _ (fun h2 => ha h2.symm)]
    · rw [if_neg hb]
      by_cases hba : hr.adjacent = a
      · subst hba
        rw [childrenOf_alistPut_self]
        exact List.mem_append.mpr (Or.inl (by unfold childrenOf at h; exact h))
      · rwa [childrenOf_alistPut_ne _ _ _ _ hba]
  all_goals exact h

theorem gt_fold_mem_preserved :
    ∀ (entries : List (String × Record)) (acc : Deps × Option String) (a x : String),
      a ≠ "start" → x ∈ childrenOf acc.1 a →
      x ∈ childrenOf (List.foldl generate_tree_step acc entries).1 a := by
  intro entries
  induction entries with
  | nil => intro acc a x _ h; exact h
  | cons e rest ih =>
    intro acc a x ha h
    rw [List.foldl_cons]
    exact ih _ a x ha (gt_step_mem_preserved acc e a x ha h)

theorem alistGet_split {α : Type} :
    ∀ (l : List (String × α)) (k : String) (v : α), alistGet l k = some v →
      ∃ l1 l2, l = l1 ++ (k, v) :: l2 := by
  intro l
  induction l with
  | nil => intro k v h; simp [alistGet] at h
  | cons p rest ih =>
    intro k v h
    rcases p with ⟨k0, r0⟩
    by_cases h0 : k0 = k
    · subst h0
      simp [alistGet] at h
      subst h
      exact ⟨[], rest, rfl⟩
    · simp only [alistGet, if_neg h0] at h
      obtain ⟨l1, l2, hl⟩ := ih k v h
      exact ⟨(k0, r0) :: l1, l2, by rw [hl]; rfl⟩

/-- A Hole record whose anchor is not the sentinel ends up in its anchor's
dependents list. -/
theorem generate_tree_hole_mem (st : Boxes) (hname : String) (hr : Hole)
    (hlook : alistGet st hname = some (Record.hole hr)) (hadj : hr.adjacent ≠ "start") :
    hname ∈ childrenOf (generate_tree st).1 hr.adjacent := by
  obtain ⟨l1, l2, hsplit⟩ := alistGet_split st hname _ hlook
  unfold generate_tree
  rw [hsplit, List.foldl_append, List.foldl_cons]
  exact gt_fold_mem_preserved l2 _ hr.adjacent hname hadj
    (gt_step_mem_insert _ hname _ _ (by simp [recAdj]) hadj)

theorem joinVals_put_append_inv (d : Deps) (seen : List String) (k a : String)
    (h1 : (depsKeys d).Nodup) (h2 : (joinVals d).Nodup)
    (h3 : ∀ x, x ∈ joinVals d → x ∈ seen) (hk : ¬ k ∈ seen) :
    (joinVals (alistPut d a ((alistGet d a).getD [] ++ [k]))).Nodup ∧
    (∀ x, x ∈ joinVals (alistPut d a ((alistGet d a).getD [] ++ [k])) → x ∈ seen ++ [k]) := by
  rcases hg : alistGet d a with _ | l
  · have hput : alistPut d a (Option.getD none [] ++ [k]) = d ++ [(a, [k])] := by
      unfold alistPut
      rw [hg]
      simp
    rw [hput, joinVals_append_single]
    constructor
    · rw [List.nodup_append]
      refine ⟨h2, by simp, ?_⟩
      intro x hx hk2
      simp at hk2
      subst hk2
      exact hk (h3 x hx)
    · intro x hx
      rcases List.mem_append.mp hx with hx | hx
      · exact List.mem_append.mpr (Or.inl (h3 x hx))
      · simp at hx
        simp [hx]
  · obtain ⟨j1, j2, hj, hset⟩ := joinVals_split d a l h1 hg
    have hput : alistPut d a (Option.getD (some l) [] ++ [k]) = alistSet d a (l ++ [k]) := by
      unfold alistPut
      rw [hg]
      simp
    rw [hput, hset (l ++ [k])]
    have hfresh : ∀ x, x ∈ j1 ++ (l ++ j2) → ¬ x = k := by
      intro x hx hxk
      subst hxk
      exact hk (h3 x (hj ▸ hx))
    have hold : (j1 ++ (l ++ j2)).Nodup := hj ▸ h2
    constructor
    · have hre : j1 ++ ((l ++ [k]) ++ j2) = (j1 ++ l) ++ k :: j2 := by
        simp [List.append_assoc]
      rw [hre, List.nodup_middle, List.nodup_cons]
      constructor
      · intro hmem
        refine hfresh k ?_ rfl
        rw [show j1 ++ (l ++ j2) = (j1 ++ l) ++ j2 from by simp [List.append_assoc]]
        rcases List.mem_append.mp hmem with h | h
        · exact List.mem_append.mpr (Or.inl h)
        · exact List.mem_append.mpr (Or.inr h)
      · rw [show (j1 ++ l) ++ j2 = j1 ++ (l ++ j2) from by simp [List.append_assoc]]
        exact hold
    · intro x hx
      simp only [List.mem_append] at hx
      rcases hx with hx | hx
      · exact List.mem_append.mpr (Or.inl (h3 x (hj ▸ (List.mem_append.mpr (Or.inl hx)))))
      rcases hx with hx | hx
      rcases hx with hx | hx
      · exact List.mem_append.mpr (Or.inl (h3 x (hj ▸ (List.mem_append.mpr (Or.inr (List.mem_append.mpr (Or.inl hx)))))))
      · simp at hx
        simp [hx]
      · exact List.mem_append.mpr (Or.inl (h3 x (hj ▸ (List.mem_append.mpr (Or.inr (List.mem_append.mpr (Or.inr hx)))))))

theorem joinVals_put_start_inv (d : Deps) (seen : List String) (k : String)
    (h1 : (depsKeys d).Nodup) (h2 : (joinVals d).Nodup)
    (h3 : ∀ x, x ∈ joinVals d → x ∈ seen) (hk : ¬ k ∈ seen) :
    (joinVals (alistPut d "start" [k])).Nodup ∧
    (∀ x, x ∈ joinVals (alistPut d "start" [k]) → x ∈ seen ++ [k]) := by
  rcases hg : alistGet d "start" with _ | l
  · have hput : alistPut d "start" [k] = d ++ [("start", [k])] := by
      unfold alistPut
      rw [hg]
    rw [hput, joinVals_append_single]
    constructor
    · rw [List.nodup_append]
      refine ⟨h2, by simp, ?_⟩
      intro x hx hk2
      simp at hk2
      subst hk2
      exact hk (h3 x hx)
    · intro x hx
      rcases List.mem_append.mp hx with hx | hx
      · exact List.mem_append.mpr (Or.inl (h3 x hx))
      · simp at hx
        simp [hx]
  · obtain ⟨j1, j2, hj, hset⟩ := joinVals_split d "start" l h1 hg
    have hput : alistPut d "start" [k] = alistSet d "start" [k] := by
      unfold alistPut
      rw [hg]
    rw [hput, hset [k]]
    have hold : (j1 ++ (l ++ j2)).Nodup := hj ▸ h2
    have hsub : (j1 ++ j2).Nodup := by
      refine List.Nodup.sublist ?_ hold
      refine List.Sublist.append_left ?_ j1
      exact List.sublist_append_right l j2
    constructor
    · rw [show j1 ++ ([k] ++ j2) = j1 ++ k :: j2 from rfl, List.nodup_middle, List.nodup_cons]
      refine ⟨?_, hsub⟩
      intro hmem
      refine hk (h3 k (hj ▸ ?_))
      rcases List.mem_append.mp hmem with h | h
      · exact List.mem_append.mpr (Or.inl h)
      · exact List.mem_append.mpr (Or.inr (List.mem_append.mpr (Or.inr h)))
    · intro x hx
      simp only [List.mem_append] at hx
      rcases hx with hx | hx
      · exact List.mem_append.mpr (Or.inl (h3 x (hj ▸ (List.mem_append.mpr (Or.inl hx)))))
      rcases hx with hx | hx
      · simp at hx
        simp [hx]
      · exact List.mem_append.mpr (Or.inl (h3 x (hj ▸ (List.mem_append.mpr (Or.inr (List.mem_append.mpr (Or.inr hx)))))))

theorem gt_fold_inv :
    ∀ (rows : List (String × Record)) (acc : Deps × Option String) (seen : List String),
      (depsKeys acc.1).Nodup → (joinVals acc.1).Nodup →
      (∀ x, x ∈ joinVals acc.1 → x ∈ seen) →
      (∀ k, k ∈ rows.map Prod.fst → ¬ k ∈ seen) →
      (rows.map Prod.fst).Nodup →
      (depsKeys (rows.foldl generate_tree_step acc).1).Nodup ∧
      (joinVals (rows.foldl generate_tree_step acc).1).Nodup ∧
      (∀ x, x ∈ joinVals (rows.foldl generate_tree_step acc).1 →
        x ∈ seen ++ rows.map Prod.fst) := by
  intro rows
  induction rows with
  | nil =>
    intro acc seen h1 h2 h3 _ _
    exact ⟨h1, h2, fun x hx => by simpa using h3 x hx⟩
  | cons e rest ih =>
    intro acc seen h1 h2 h3 hfresh hnd
    rcases e with ⟨k, r⟩
    simp only [List.map_cons, List.nodup_cons] at hnd
    have hkfresh : ¬ k ∈ seen := hfresh k (by simp)
    have hstep : (depsKeys (generate_tree_step acc (k, r)).1).Nodup ∧
        (joinVals (generate_tree_step acc (k, r)).1).Nodup ∧
        (∀ x, x ∈ joinVals (generate_tree_step acc (k, r)).1 → x ∈ seen ++ [k]) := by
      cases r with
      | box b =>
        by_cases hadj : b.adjacent = "start"
        · have hred : generate_tree_step acc (k, Record.box b) =
              (alistPut acc.1 "start" [k], some k) := by
            unfold generate_tree_step
            simp only
            rw [if_pos hadj]
          rw [hred]
          have h := joinVals_put_start_inv acc.1 seen k h1 h2 h3 hkfresh
          exact ⟨alistPut_keys_nodup acc.1 "start" [k] h1, h.1, h.2⟩
        · have hred : generate_tree_step acc (k, Record.box b) =
              (alistPut acc.1 b.adjacent
                ((alistGet acc.1 b.adjacent).getD [] ++ [k]), acc.2) := by
            unfold generate_tree_step
            simp only
            rw [if_neg hadj]
          rw [hred]
          have h := joinVals_put_append_inv acc.1 seen k b.adjacent h1 h2 h3 hkfresh
          exact ⟨alistPut_keys_nodup acc.1 b.adjacent _ h1, h.1, h.2⟩
      | hole hh =>
        by_cases hadj : hh.adjacent = "start"
        · have hred : generate_tree_step acc (k, Record.hole hh) =
              (alistPut acc.1 "start" [k], some k) := by
            unfold generate_tree_step
            simp only
            rw [if_pos hadj]
          rw [hred]
          have h := joinVals_put_start_inv acc.1 seen k h1 h2 h3 hkfresh
          exact ⟨alistPut_keys_nodup acc.1 "start" [k] h1, h.1, h.2⟩
        · have hred : generate_tree_step acc (k, Record.hole hh) =
              (alistPut acc.1 hh.adjacent
                ((alistGet acc.1 hh.adjacent).getD [] ++ [k]), acc.2) := by
            unfold generate_tree_step
            simp only
            rw [if_neg hadj]
          rw [hred]
          have h := joinVals_put_append_inv acc.1 seen k hh.adjacent h1 h2 h3 hkfresh
          exact ⟨alistPut_keys_nodup acc.1 hh.adjacent _ h1, h.1, h.2⟩
      | const c =>
        exact ⟨h1, h2, fun x hx => List.mem_append.mpr (Or.inl (h3 x hx))⟩
      | typeRow data =>
        exact ⟨h1, h2, fun x hx => List.mem_append.mpr (Or.inl (h3 x hx))⟩
      | custom data =>
        exact ⟨h1, h2, fun x hx => List.mem_append.mpr (Or.inl (h3 x hx))⟩
    have hfresh2 : ∀ k2, k2 ∈ rest.map Prod.fst → ¬ k2 ∈ seen ++ [k] := by
      intro k2 hk2 hmem
      rcases List.mem_append.mp hmem with hm | hm
      · refine hfresh k2 ?_ hm
        simp only [List.map_cons, List.mem_cons]
        exact Or.inr hk2
      · simp only [List.mem_singleton] at hm
        exact hnd.1 (hm ▸ hk2)
    have hrest := ih (generate_tree_step acc (k, r)) (seen ++ [k])
      hstep.1 hstep.2.1 hstep.2.2 hfresh2 hnd.2
    rw [List.foldl_cons]
    refine ⟨hrest.1, hrest.2.1, ?_⟩
    intro x hx
    have hx2 := hrest.2.2 x hx
    simp only [List.mem_append, List.mem_singleton, List.map_cons, List.mem_cons] at hx2 ⊢
    tauto

/-- Distinct record names give a dependents map with distinct anchors and with
every dependent name listed exactly once across the whole map. -/
theorem generate_tree_nodups (st : Boxes) (h : (st.map Prod.fst).Nodup) :
    (depsKeys (generate_tree st).1).Nodup ∧ (joinVals (generate_tree st).1).Nodup := by
  have hall := gt_fold_inv st ([], none) []
    (by simp [depsKeys]) (by simp [joinVals]) (by simp [joinVals])
    (by intro k _ hk; simp at hk) h
  exact ⟨hall.1, hall.2.1⟩

/-! ### Pre-order structure of the trace -/

theorem alistGet_mem {α : Type} :
    ∀ (l : List (String × α)) (k : String) (v : α), alistGet l k = some v → (k, v) ∈ l := by
  intro l
  induction l with
  | nil => intro k v h; simp [alistGet] at h
  | cons p rest ih =>
    intro k v h
    rcases p with ⟨k0, v0⟩
    by_cases h0 : k0 = k
    · subst h0
      simp [alistGet] at h
      subst h
      exact List.mem_cons_self _ _
    · simp only [alistGet, if_neg h0] at h
      exact List.mem_cons_of_mem _ (ih k v h)

/-- Every Box record of the map has an empty hole list (the state in which
the walk starts: `Box.__init__` sets `holes = []`). -/
def boxesStartEmpty (st : Boxes) : Bool :=
  st.all (fun e => match e.2 with | Record.box b => b.holes.isEmpty | _ => true)

theorem holes_nil_of_startEmpty {st : Boxes} (h : boxesStartEmpty st = true)
    {m : String} {b : Box} (hb : alistGet st m = some (Record.box b)) : b.holes = [] := by
  have hmem := alistGet_mem st m _ hb
  exact List.isEmpty_iff.mp (List.all_eq_true.mp h _ hmem)

theorem descBoxAll_cons2 (st : Boxes) (c : LTree) (cs : List LTree) :
    descBoxAll st (c :: cs) = preBox st c ++ descBoxAll st cs := by
  rw [descBoxAll_cons]
  simp [preBox, List.append_assoc]

theorem mem_namesAll {s : String} :
    ∀ {cs : List LTree}, s ∈ namesAll cs → ∃ c, c ∈ cs ∧ s ∈ LTree.names c := by
  intro cs
  induction cs with
  | nil => intro h; simp [namesAll] at h
  | cons c cs ih =>
    intro h
    rw [namesAll_cons, List.mem_append] at h
    rcases h with h | h
    · exact ⟨c, by simp, h⟩
    · obtain ⟨c2, hc2, hs⟩ := ih h
      exact ⟨c2, by simp [hc2], hs⟩

theorem matchesAll_mem {deps : Deps} :
    ∀ {cs : List LTree} {c : LTree}, matchesAll deps cs = true → c ∈ cs →
      matchesDeps deps c = true := by
  intro cs
  induction cs with
  | nil => intro c _ h; cases h
  | cons c0 cs ih =>
    intro c h hc
    obtain ⟨h1, h2⟩ := matchesAll_cons h
    rcases List.mem_cons.mp hc with rfl | hc
    · exact h1
    · exact ih h2 hc

theorem preBox_sublist_descBoxAll (st : Boxes) {c : LTree} :
    ∀ {cs : List LTree}, c ∈ cs → List.Sublist (preBox st c) (descBoxAll st cs) := by
  intro cs
  induction cs with
  | nil => intro h; cases h
  | cons c0 cs ih =>
    intro h
    rw [descBoxAll_cons2]
    rcases List.mem_cons.mp h with rfl | h
    · exact List.sublist_append_left _ _
    · exact List.sublist_append_of_sublist_right (ih h)

theorem preBox_sublist_names (st : Boxes) :
    ∀ t, List.Sublist (preBox st t) (LTree.names t) := by
  refine LTree.recMem ?_
  intro n cs ih
  have hforest : ∀ ds, (∀ c, c ∈ ds → List.Sublist (preBox st c) (LTree.names c)) →
      List.Sublist (descBoxAll st ds) (namesAll ds) := by
    intro ds
    induction ds with
    | nil => intro _; simp [descBoxAll, namesAll]
    | cons c ds ihd =>
      intro hds
      rw [descBoxAll_cons2, namesAll_cons]
      exact List.Sublist.append (hds c (by simp)) (ihd (fun c2 h2 => hds c2 (by simp [h2])))
  have hf := hforest cs ih
  rw [show preBox st (LTree.node n cs) =
      (if isBoxName st n then [n] else []) ++ descBoxAll st cs from by
        simp [preBox, LTree.rootName, descBox], names_node]
  by_cases hb : isBoxName st n
  · rw [if_pos hb]
    exact List.Sublist.cons₂ n hf
  · rw [if_neg hb]
    exact List.Sublist.cons n hf

theorem mem_preBox (st : Boxes) :
    ∀ t, ∀ s, s ∈ LTree.names t → isBoxName st s = true → s ∈ preBox st t := by
  refine LTree.recMem ?_
  intro n cs ih s hs hbox
  rw [names_node, List.mem_cons] at hs
  have hpre : preBox st (LTree.node n cs) =
      (if isBoxName st n then [n] else []) ++ descBoxAll st cs := by
    simp [preBox, LTree.rootName, descBox]
  rcases hs with rfl | hs
  · rw [hpre, if_pos hbox]
    simp
  · obtain ⟨c, hc, hsc⟩ := mem_namesAll hs
    have hin : s ∈ preBox st c := ih c hc s hsc hbox
    have hsub := preBox_sublist_descBoxAll st hc
    rw [hpre, List.mem_append]
    exact Or.inr (hsub.subset hin)

theorem preBox_count_one (st : Boxes) (t : LTree) (hnd : (LTree.names t).Nodup)
    (s : String) (hs : s ∈ LTree.names t) (hb : isBoxName st s = true) :
    (preBox st t).count s = 1 := by
  have hmem := mem_preBox st t s hs hb
  have hndp : (preBox st t).Nodup := List.Nodup.sublist (preBox_sublist_names st t) hnd
  exact List.count_eq_one_of_mem hndp hmem

theorem preBox_parent_child (st : Boxes) (deps : Deps) :
    ∀ t, matchesDeps deps t = true →
      ∀ s d, s ∈ LTree.names t → d ∈ childrenOf deps s →
        isBoxName st s = true → isBoxName st d = true →
        List.Sublist [s, d] (preBox st t) := by
  refine LTree.recMem ?_
  intro n cs ih hm s d hs hd hbs hbd
  obtain ⟨hch, hmall⟩ := matchesDeps_node hm
  have hpre : preBox st (LTree.node n cs) =
      (if isBoxName st n then [n] else []) ++ descBoxAll st cs := by
    simp [preBox, LTree.rootName, descBox]
  rw [names_node, List.mem_cons] at hs
  rcases hs with rfl | hs
  · rw [hpre, if_pos hbs]
    refine List.Sublist.cons₂ s ?_
    rw [List.singleton_sublist]
    rw [hch] at hd
    obtain ⟨c, hc, hrd⟩ := List.mem_map.mp hd
    have hbroot : isBoxName st (LTree.rootName c) = true := by rw [hrd]; exact hbd
    have hin : LTree.rootName c ∈ preBox st c := by
      unfold preBox
      rw [if_pos hbroot]
      simp
    exact (preBox_sublist_descBoxAll st hc).subset (hrd ▸ hin)
  · obtain ⟨c, hc, hsc⟩ := mem_namesAll hs
    have hms := matchesAll_mem hmall hc
    have h1 := ih c hc hms s d hsc hd hbs hbd
    have h2 := preBox_sublist_descBoxAll st hc
    have h3 : List.Sublist (descBoxAll st cs) (preBox st (LTree.node n cs)) := by
      rw [hpre]
      exact List.sublist_append_right _ _
    exact h1.trans (h2.trans h3)

/-! ## C3: every Hole lands in exactly one hole list; C4: pre-order walk -/

/-- A three-record layout: the Hall (the root room), an annex box abutting it
on the right, and the back door cut into the Hall. -/
def hallDoorSt : Boxes :=
  [("Hall", Record.box hallBox), ("Annex", Record.box rightBox),
   ("door", Record.hole backDoor)]

/-- The adjacency tree of `hallDoorSt`: the Hall with its two dependents. -/
def hallDoorTree : LTree :=
  LTree.node "Hall" [LTree.node "Annex" [], LTree.node "door" []]

/-- C3: for a well-formed input (the dependents map unfolds to a finite tree
with distinct names, every named record exists, anchors with dependents are
Boxes with numeric offsets, and the fuel covers the tree's depth), after the
resolver's walk every Hole whose anchor is not the sentinel is a member of
exactly one Box's hole list, namely the list of the Box named in the Hole's
`adjacent` field (where it occurs once); and the Hole's own record is
unchanged — no position is ever computed or stored for it. -/
theorem c3_hole_in_exactly_one_space (st : Boxes) (t : LTree) (fuel : Nat)
    (hname : String) (hr : Hole)
    (hkeys : (st.map Prod.fst).Nodup)
    (hmatch : matchesDeps (generate_tree st).1 t = true)
    (hnd : (LTree.names t).Nodup)
    (hwf : ∀ n, n ∈ LTree.names t → wfNodeB st (generate_tree st).1 n = true)
    (hdepth : LTree.depth t ≤ fuel)
    (hempty : boxesStartEmpty st = true)
    (hlook : alistGet st hname = some (Record.hole hr))
    (hadjmem : hr.adjacent ∈ LTree.names t)
    (hadj : hr.adjacent ≠ "start") :
    ∃ st2 tr,
      position_dependents (generate_tree st).1 fuel st t.rootName = some (st2, tr) ∧
      (∀ m b2, alistGet st2 m = some (Record.box b2) →
        (hname ∈ b2.holes ↔ m = hr.adjacent)) ∧
      (∃ ab2, alistGet st2 hr.adjacent = some (Record.box ab2) ∧
        ab2.holes.count hname = 1) ∧
      alistGet st2 hname = some (Record.hole hr) := by
  obtain ⟨hdk, hjv⟩ := generate_tree_nodups st hkeys
  have hchild : hname ∈ childrenOf (generate_tree st).1 hr.adjacent :=
    generate_tree_hole_mem st hname hr hlook hadj
  have hholeN : isHoleName st hname = true := isHoleName_of_lookup hlook
  obtain ⟨st2, tr, hrun, htr, hstat, hout, hbx, hhl, hcn⟩ :=
    walk_spec (generate_tree st).1 t fuel st hmatch hnd hwf hdepth
  refine ⟨st2, tr, hrun, ?_, ?_, hhl hname hr hlook⟩
  · intro m b2 hm2
    by_cases hmem : m ∈ LTree.names t
    · have hbm2 : isBoxName st2 m = true := isBoxName_of_lookup hm2
      have hbm : isBoxName st m = true := by
        rw [isBoxName_congr hstat m]
        exact hbm2
      obtain ⟨b, hb⟩ := isBoxName_exists hbm
      obtain ⟨b2x, hb2x, hh2x, _⟩ := hbx m b hmem hb
      have hbe : b2x = b2 := by
        rw [hb2x] at hm2
        exact Record.box.inj (Option.some.inj hm2)
      subst hbe
      have hb0 : b.holes = [] := holes_nil_of_startEmpty hempty hb
      rw [hh2x, hb0, List.nil_append]
      constructor
      · intro hin
        exact childrenOf_unique (generate_tree st).1 m hr.adjacent hname hdk hjv
          (List.mem_filter.mp hin).1 hchild
      · intro he
        subst he
        exact List.mem_filter.mpr ⟨hchild, hholeN⟩
    · have huc := hout m hmem
      rw [huc] at hm2
      have hb0 : b2.holes = [] := holes_nil_of_startEmpty hempty hm2
      rw [hb0]
      simp only [List.not_mem_nil, false_iff]
      intro he
      exact hmem (he.symm ▸ hadjmem)
  · have hwfa := wfNodeB_parts (hwf hr.adjacent hadjmem)
    have hba : isBoxName st hr.adjacent = true := by
      refine hwfa.2.1 ?_
      intro hnil
      rw [hnil] at hchild
      cases hchild
    obtain ⟨ab, hab⟩ := isBoxName_exists hba
    obtain ⟨ab2, hab2, habh, _⟩ := hbx hr.adjacent ab hadjmem hab
    refine ⟨ab2, hab2, ?_⟩
    have hb0 : ab.holes = [] := holes_nil_of_startEmpty hempty hab
    rw [habh, hb0, List.nil_append]
    have hndc : (childrenOf (generate_tree st).1 hr.adjacent).Nodup :=
      childrenOf_nodup (generate_tree st).1 hr.adjacent hjv
    exact List.count_eq_one_of_mem (hndc.filter _)
      (List.mem_filter.mpr ⟨hchild, hholeN⟩)

/-- Witness for C3: in the Hall/Annex/door layout, walking from the Hall
puts the door in exactly the Hall's hole list (once), and leaves the door's
record untouched. -/
theorem c3_hole_in_exactly_one_space_witness :
    ∃ st2 tr,
      position_dependents (generate_tree hallDoorSt).1 2 hallDoorSt
        hallDoorTree.rootName = some (st2, tr) ∧
      (∀ m b2, alistGet st2 m = some (Record.box b2) →
        ("door" ∈ b2.holes ↔ m = backDoor.adjacent)) ∧
      (∃ ab2, alistGet st2 backDoor.adjacent = some (Record.box ab2) ∧
        ab2.holes.count "door" = 1) ∧
      alistGet st2 "door" = some (Record.hole backDoor) :=
  c3_hole_in_exactly_one_space hallDoorSt hallDoorTree 2 "door" backDoor
    (by decide) (by decide) (by decide) (by decide) (by decide) (by decide)
    (by decide) (by decide) (by decide)

/-- C4: under the same well-formedness hypotheses, with the root denoting a
Box, the walk visits the adjacency tree in depth-first pre-order: prefixing
the root's name to the walk's set-position trace, every Box name of the tree
occurs exactly once in that order (its position is set exactly once), every
Box appears in the order strictly before each of its direct Box dependents
(the anchor's position is set — hence readable — before any dependent's is
computed), and the root's own position, assigned before the walk, is not
re-assigned by it. -/
theorem c4_preorder_walk (st : Boxes) (t : LTree) (fuel : Nat)
    (hkeys : (st.map Prod.fst).Nodup)
    (hmatch : matchesDeps (generate_tree st).1 t = true)
    (hnd : (LTree.names t).Nodup)
    (hwf : ∀ n, n ∈ LTree.names t → wfNodeB st (generate_tree st).1 n = true)
    (hdepth : LTree.depth t ≤ fuel)
    (hroot : isBoxName st t.rootName = true) :
    ∃ st2 tr,
      position_dependents (generate_tree st).1 fuel st t.rootName = some (st2, tr) ∧
      (∀ s, s ∈ LTree.names t → isBoxName st s = true →
        (t.rootName :: tr).count s = 1) ∧
      (∀ s d, s ∈ LTree.names t → d ∈ childrenOf (generate_tree st).1 s →
        isBoxName st d = true → List.Sublist [s, d] (t.rootName :: tr)) ∧
      (∀ b, alistGet st t.rootName = some (Record.box b) →
        ∃ b2, alistGet st2 t.rootName = some (Record.box b2) ∧
          b2.position = b.position) := by
  obtain ⟨st2, tr, hrun, htr, hstat, hout, hbx, hhl, hcn⟩ :=
    walk_spec (generate_tree st).1 t fuel st hmatch hnd hwf hdepth
  have hord : t.rootName :: tr = preBox st t := by
    rw [htr]
    unfold preBox
    rw [if_pos hroot]
    rfl
  refine ⟨st2, tr, hrun, ?_, ?_, ?_⟩
  · intro s hs hb
    rw [hord]
    exact preBox_count_one st t hnd s hs hb
  · intro s d hs hd hbd
    rw [hord]
    have hbs : isBoxName st s = true := by
      refine (wfNodeB_parts (hwf s hs)).2.1 ?_
      intro hnil
      rw [hnil] at hd
      cases hd
    exact preBox_parent_child st (generate_tree st).1 t hmatch s d hs hd hbs hbd
  · intro b hb
    obtain ⟨b2, hb2, _, hpos⟩ := hbx t.rootName b (rootName_mem_names t) hb
    exact ⟨b2, hb2, hpos rfl⟩

/-- Witness for C4: in the Hall/Annex/door layout each Box name appears
exactly once in the order, the Hall comes before the Annex, and the Hall's
pre-assigned position survives the walk. -/
theorem c4_preorder_walk_witness :
    ∃ st2 tr,
      position_dependents (generate_tree hallDoorSt).1 2 hallDoorSt
        hallDoorTree.rootName = some (st2, tr) ∧
      (∀ s, s ∈ LTree.names hallDoorTree → isBoxName hallDoorSt s = true →
        (hallDoorTree.rootName :: tr).count s = 1) ∧
      (∀ s d, s ∈ LTree.names hallDoorTree →
        d ∈ childrenOf (generate_tree hallDoorSt).1 s →
        isBoxName hallDoorSt d = true →
        List.Sublist [s, d] (hallDoorTree.rootName :: tr)) ∧
      (∀ b, alistGet hallDoorSt hallDoorTree.rootName = some (Record.box b) →
        ∃ b2, alistGet st2 hallDoorTree.rootName = some (Record.box b2) ∧
          b2.position = b.position) :=
  c4_preorder_walk hallDoorSt hallDoorTree 2
    (by decide) (by decide) (by decide) (by decide) (by decide) (by decide)
